import Mathlib

/-!
# LaunchPad circular buffer (`src/circular_buffer.c`)

A shallow embedding of the interrupt-safe ring buffer and a verification of its
occupancy, FIFO, clamping and rollover properties.

Conventions of the embedding

* `unsigned int` is 32 bits wide (the target is a 32-bit ARM LaunchPad); unsigned
  arithmetic is arithmetic on `Nat` reduced modulo `2^32`.
* Memory reached through a pointer is a function from byte offsets (relative to
  the pointer) to byte values; a null pointer is `none`.
* `IntMasterDisable` / `IntMasterEnable` bracket every mutating call, so each
  call is one indivisible step; the embedding is sequential.
-/

namespace CircularBuffer

/-! ## Machine arithmetic and memory -/

/-- Number of values of an `unsigned int` (32 bits). -/
def UINT_MOD : Nat := 4294967296

/-- Unsigned 32-bit addition. -/
def uadd (a b : Nat) : Nat := (a + b) % 4294967296

/-- Unsigned 32-bit subtraction (wraps below zero). -/
def usub (a b : Nat) : Nat := (a + (4294967296 - b % 4294967296)) % 4294967296

/-- Conversion of an `unsigned int` to `int` (two's complement, as in
`bytesLeft = buff->itemSize`). -/
def toInt (a : Nat) : Int :=
  if a % 4294967296 < 2147483648 then ((a % 4294967296 : Nat) : Int)
  else ((a % 4294967296 : Nat) : Int) - 4294967296

/-- Bytes of memory at a pointer, indexed by byte offset from the pointer. -/
abbrev Mem := Nat → Nat

/-- The `n` bytes at offsets `off .. off + n - 1`. -/
def loadBytes (m : Mem) (off n : Nat) : List Nat :=
  (List.range n).map (fun i => m (off + i))

/-- Memory after storing the bytes `bs` at offsets `off .. off + bs.length - 1`. -/
def storeBytes (m : Mem) (off : Nat) (bs : List Nat) : Mem :=
  fun a => if off ≤ a ∧ a < off + bs.length then bs.getD (a - off) 0 else m a

/-! ## The buffer -/

/-- Modelled from the spec: `circular_buffer.h` (the declaration of
`circularBuffer_t`) is not among the sources. The fields are the ones the
functions use: `itemSize`, `numItems`, `rdCnt`, `wrCnt` are `unsigned int`
(the type of the corresponding parameters of `initCircularBuffer`), and `data`
is a `uint8_t *`, here the contents of the storage it points to. -/
structure circularBuffer_t where
  itemSize : Nat
  numItems : Nat
  rdCnt : Nat
  wrCnt : Nat
  data : Mem

/-- Embedding of `initCircularBuffer`: `buff` is the struct behind the pointer
(`none` for a null pointer), `buffAddr` the storage. Returns the result and the
struct afterwards. -/
def initCircularBuffer (buff : Option circularBuffer_t) (itemSize numItems : Nat)
    (buffAddr : Option Mem) : Bool × Option circularBuffer_t :=
  match buff, buffAddr with
  | some _, some addr =>
    if itemSize = 0 ∨ numItems = 0 then (false, buff)
    else (true, some
      { itemSize := itemSize, numItems := numItems, rdCnt := 0, wrCnt := 0, data := addr })
  | _, _ => (false, buff)

/-- Embedding of `circularBufferFull` (no null check in the source). -/
def circularBufferFull (buff : circularBuffer_t) : Bool :=
  if buff.numItems ≤ usub buff.wrCnt buff.rdCnt then true else false

/-- Embedding of `circularBufferEmpty` (no null check in the source). -/
def circularBufferEmpty (buff : circularBuffer_t) : Bool :=
  if usub buff.wrCnt buff.rdCnt = 0 then true else false

/-- First loop of the default branch of `addSingleItemUnsafe`:
`while (bytesLeft >= 8)` stores one 64-bit word of the item at word index
`index` of the storage, then `index += 8`, `dataPtr64++`, `bytesLeft -= 8`.
Arguments: `bytesLeft`, `index`, byte offset of `dataPtr64` in the item,
storage. Returns the four after the loop. -/
def addChunkLoop (item : Mem) : Nat → Nat → Nat → Mem → Nat × Nat × Nat × Mem
  | bytesLeft + 8, index, src, data =>
    addChunkLoop item bytesLeft (uadd index 8) (src + 8)
      (storeBytes data (8 * index) (loadBytes item src 8))
  | bytesLeft, index, src, data => (bytesLeft, index, src, data)

/-- Second loop of the default branch of `addSingleItemUnsafe`:
`while (bytesLeft > 0)` stores `*dataPtr8` at byte `index` of the storage, then
`index++`, `bytesLeft--`; `dataPtr8` is not advanced. Arguments: `bytesLeft`,
`index`, storage; `src` is the byte offset of `dataPtr8` in the item. -/
def addByteLoop (item : Mem) (src : Nat) : Nat → Nat → Mem → Mem
  | bytesLeft + 1, index, data =>
    addByteLoop item src bytesLeft (uadd index 1) (storeBytes data index [item src])
  | 0, _, data => data

/-- Embedding of `addSingleItemUnsafe`: the storage after the copy of one record
from `item`. The signed `bytesLeft` is negative exactly when neither loop runs,
so the loops count on its non-negative part. -/
def addSingleItemUnsafe (buff : circularBuffer_t) (item : Mem) : Mem :=
  let index := buff.wrCnt % buff.numItems
  if buff.itemSize = 1 then storeBytes buff.data index (loadBytes item 0 1)
  else if buff.itemSize = 2 then storeBytes buff.data (2 * index) (loadBytes item 0 2)
  else if buff.itemSize = 4 then storeBytes buff.data (4 * index) (loadBytes item 0 4)
  else if buff.itemSize = 8 then storeBytes buff.data (8 * index) (loadBytes item 0 8)
  else
    let bytesLeft : Int := toInt buff.itemSize
    let r := addChunkLoop item bytesLeft.toNat index 0 buff.data
    addByteLoop item r.2.2.1 r.1 r.2.1 r.2.2.2

/-- Embedding of `circularBufferAddItem`. -/
def circularBufferAddItem (buff : Option circularBuffer_t) (item : Option Mem) :
    Bool × Option circularBuffer_t :=
  match buff, item with
  | some b, some it =>
    if b.numItems ≤ usub b.wrCnt b.rdCnt then (false, buff)
    else (true, some { b with data := addSingleItemUnsafe b it, wrCnt := uadd b.wrCnt 1 })
  | _, _ => (false, buff)

/-- The `while (itemsRemaining > 0)` loop of `circularBufferAddMultiple`:
`buff` already carries the incremented `wrCnt`; `item` is advanced by
`itemSize` bytes every round. -/
def addMultipleLoop : Nat → circularBuffer_t → Mem → circularBuffer_t
  | itemsRemaining + 1, buff, item =>
    addMultipleLoop itemsRemaining { buff with data := addSingleItemUnsafe buff item }
      (fun i => item (buff.itemSize + i))
  | 0, buff, _ => buff

/-- Embedding of `circularBufferAddMultiple`. -/
def circularBufferAddMultiple (buff : Option circularBuffer_t) (item : Option Mem)
    (numItems : Nat) : Nat × Option circularBuffer_t :=
  match buff, item with
  | some b, some it =>
    let numItems :=
      if usub b.numItems (usub b.wrCnt b.rdCnt) < numItems
      then usub b.numItems (usub b.wrCnt b.rdCnt) else numItems
    let itemsRemaining := numItems
    let b1 := { b with wrCnt := uadd b.wrCnt itemsRemaining }
    (numItems, some (addMultipleLoop itemsRemaining b1 it))
  | _, _ => (0, buff)

/-- First loop of the default branch of `removeSingleItemUnsafe`:
`while (bytesLeft >= 8)` stores the byte `buff->data[index]`, widened to 64
bits, through `dataPtr64` (little-endian: the byte, then seven zero bytes),
then `dataPtr64++`, `index += 8`, `bytesLeft -= 8`. Arguments: `bytesLeft`,
`index`, bytes written to the output so far. -/
def removeChunkLoop (data : Mem) : Nat → Nat → List Nat → Nat × Nat × List Nat
  | bytesLeft + 8, index, out =>
    removeChunkLoop data bytesLeft (uadd index 8) (out ++ [data index, 0, 0, 0, 0, 0, 0, 0])
  | bytesLeft, index, out => (bytesLeft, index, out)

/-- Second loop of the default branch of `removeSingleItemUnsafe`:
`while (bytesLeft > 0)` copies `buff->data[index]` to `*dataPtr8`, then
`dataPtr8++`, `index++`, `bytesLeft--`. -/
def removeByteLoop (data : Mem) : Nat → Nat → List Nat → List Nat
  | bytesLeft + 1, index, out => removeByteLoop data bytesLeft (uadd index 1) (out ++ [data index])
  | 0, _, out => out

/-- Embedding of `removeSingleItemUnsafe`: the bytes stored through the output
pointer, in address order. -/
def removeSingleItemUnsafe (buff : circularBuffer_t) : List Nat :=
  let index := buff.rdCnt % buff.numItems
  if buff.itemSize = 1 then loadBytes buff.data index 1
  else if buff.itemSize = 2 then loadBytes buff.data (2 * index) 2
  else if buff.itemSize = 4 then loadBytes buff.data (4 * index) 4
  else if buff.itemSize = 8 then loadBytes buff.data (8 * index) 8
  else
    let bytesLeft := buff.itemSize
    let r := removeChunkLoop buff.data bytesLeft index []
    removeByteLoop buff.data r.1 r.2.1 r.2.2

/-- The rollover check that ends both remove operations:
`if (rdCnt >= numItems) { rdCnt -= numItems; wrCnt -= numItems; }`. -/
def rolloverCheck (buff : circularBuffer_t) : circularBuffer_t :=
  if buff.numItems ≤ buff.rdCnt then
    { buff with rdCnt := usub buff.rdCnt buff.numItems, wrCnt := usub buff.wrCnt buff.numItems }
  else buff

/-- Embedding of `circularBufferRemoveItem`: `data` is the output pointer
(`none` when null); returns the result, the struct afterwards and the bytes
stored through `data`. -/
def circularBufferRemoveItem (buff : Option circularBuffer_t) (data : Option Unit) :
    Bool × Option circularBuffer_t × List Nat :=
  match buff, data with
  | some b, some _ =>
    if b.wrCnt ≤ b.rdCnt then (false, buff, [])
    else
      (true, some (rolloverCheck { b with rdCnt := uadd b.rdCnt 1 }), removeSingleItemUnsafe b)
  | _, _ => (false, buff, [])

/-- The `while (itemsRemaining > 0)` loop of `circularBufferRemoveMultiple`:
`buff` already carries the incremented `rdCnt`; every round appends one record
to the output. -/
def removeMultipleLoop (buff : circularBuffer_t) : Nat → List Nat → List Nat
  | itemsRemaining + 1, out =>
    removeMultipleLoop buff itemsRemaining (out ++ removeSingleItemUnsafe buff)
  | 0, out => out

/-- Embedding of `circularBufferRemoveMultiple`. -/
def circularBufferRemoveMultiple (buff : Option circularBuffer_t) (data : Option Unit)
    (numItems : Nat) : Nat × Option circularBuffer_t × List Nat :=
  match buff, data with
  | some b, some _ =>
    if numItems = 0 then (0, buff, [])
    else
      let numItems :=
        if usub b.wrCnt b.rdCnt < numItems then usub b.wrCnt b.rdCnt else numItems
      let itemsRemaining := numItems
      let b1 := { b with rdCnt := uadd b.rdCnt itemsRemaining }
      (numItems, some (rolloverCheck b1), removeMultipleLoop b1 itemsRemaining [])
  | _, _ => (0, buff, [])

/-! ## Call sequences -/

/-- One call on a buffer through a non-null `buff` pointer. The remaining
pointer arguments may be null (`none`). -/
inductive Op where
  | addItem (item : Option Mem)
  | addMultiple (item : Option Mem) (numItems : Nat)
  | removeItem (data : Option Unit)
  | removeMultiple (data : Option Unit) (numItems : Nat)
  | full
  | empty

/-- Return value of a call. -/
inductive Ret where
  | bool (r : Bool)
  | count (n : Nat)
  deriving DecidableEq, Repr

/-- What the caller observes of one call: the return value and the bytes stored
at the output location. -/
structure Obs where
  ret : Ret
  out : List Nat
  deriving DecidableEq, Repr

/-- Effect of one call on the struct behind `buff`, and what the caller sees. -/
def step (b : circularBuffer_t) : Op → circularBuffer_t × Obs
  | .addItem item =>
    let r := circularBufferAddItem (some b) item
    (r.2.getD b, ⟨.bool r.1, []⟩)
  | .addMultiple item n =>
    let r := circularBufferAddMultiple (some b) item n
    (r.2.getD b, ⟨.count r.1, []⟩)
  | .removeItem data =>
    let r := circularBufferRemoveItem (some b) data
    (r.2.1.getD b, ⟨.bool r.1, r.2.2⟩)
  | .removeMultiple data n =>
    let r := circularBufferRemoveMultiple (some b) data n
    (r.2.1.getD b, ⟨.count r.1, r.2.2⟩)
  | .full => (b, ⟨.bool (circularBufferFull b), []⟩)
  | .empty => (b, ⟨.bool (circularBufferEmpty b), []⟩)

/-- A sequence of calls: the final struct and the observations in call order. -/
def run (b : circularBuffer_t) : List Op → circularBuffer_t × List Obs
  | [] => (b, [])
  | op :: ops =>
    let r := step b op
    let rest := run r.1 ops
    (rest.1, r.2 :: rest.2)

/-- The records handed to the successful `circularBufferAddItem` calls of a
sequence, each as its `itemSize` bytes, in call order. -/
def addedRecords (itemSize : Nat) : List Op → List Obs → List (List Nat)
  | .addItem (some item) :: ops, o :: obs =>
    if o.ret = .bool true then loadBytes item 0 itemSize :: addedRecords itemSize ops obs
    else addedRecords itemSize ops obs
  | _ :: ops, _ :: obs => addedRecords itemSize ops obs
  | _, _ => []

/-- The bytes delivered by the successful `circularBufferRemoveItem` calls of a
sequence, in call order. -/
def removedRecords : List Op → List Obs → List (List Nat)
  | .removeItem _ :: ops, o :: obs =>
    if o.ret = .bool true then o.out :: removedRecords ops obs
    else removedRecords ops obs
  | _ :: ops, _ :: obs => removedRecords ops obs
  | _, _ => []

/-- A call sequence made of `circularBufferAddItem` and
`circularBufferRemoveItem` calls only. -/
def singleOnly : List Op → Bool
  | [] => true
  | .addItem _ :: ops => singleOnly ops
  | .removeItem _ :: ops => singleOnly ops
  | _ :: _ => false

/-! ## Idealised variant: unbounded counters, no rollover normalisation -/

namespace Ideal

/-- Idealised `circularBufferFull`: the counters are natural numbers. -/
def circularBufferFull (buff : circularBuffer_t) : Bool :=
  if buff.numItems ≤ buff.wrCnt - buff.rdCnt then true else false

/-- Idealised `circularBufferEmpty`. -/
def circularBufferEmpty (buff : circularBuffer_t) : Bool :=
  if buff.wrCnt - buff.rdCnt = 0 then true else false

/-- Idealised `circularBufferAddItem`: `wrCnt` grows without bound. -/
def circularBufferAddItem (buff : Option circularBuffer_t) (item : Option Mem) :
    Bool × Option circularBuffer_t :=
  match buff, item with
  | some b, some it =>
    if b.numItems ≤ b.wrCnt - b.rdCnt then (false, buff)
    else (true, some { b with data := addSingleItemUnsafe b it, wrCnt := b.wrCnt + 1 })
  | _, _ => (false, buff)

/-- Idealised `circularBufferAddMultiple`. -/
def circularBufferAddMultiple (buff : Option circularBuffer_t) (item : Option Mem)
    (numItems : Nat) : Nat × Option circularBuffer_t :=
  match buff, item with
  | some b, some it =>
    let numItems :=
      if b.numItems - (b.wrCnt - b.rdCnt) < numItems
      then b.numItems - (b.wrCnt - b.rdCnt) else numItems
    let itemsRemaining := numItems
    let b1 := { b with wrCnt := b.wrCnt + itemsRemaining }
    (numItems, some (addMultipleLoop itemsRemaining b1 it))
  | _, _ => (0, buff)

/-- Idealised `circularBufferRemoveItem`: `rdCnt` grows without bound and the
rollover check is absent. -/
def circularBufferRemoveItem (buff : Option circularBuffer_t) (data : Option Unit) :
    Bool × Option circularBuffer_t × List Nat :=
  match buff, data with
  | some b, some _ =>
    if b.wrCnt ≤ b.rdCnt then (false, buff, [])
    else (true, some { b with rdCnt := b.rdCnt + 1 }, removeSingleItemUnsafe b)
  | _, _ => (false, buff, [])

/-- Idealised `circularBufferRemoveMultiple`. -/
def circularBufferRemoveMultiple (buff : Option circularBuffer_t) (data : Option Unit)
    (numItems : Nat) : Nat × Option circularBuffer_t × List Nat :=
  match buff, data with
  | some b, some _ =>
    if numItems = 0 then (0, buff, [])
    else
      let numItems :=
        if b.wrCnt - b.rdCnt < numItems then b.wrCnt - b.rdCnt else numItems
      let itemsRemaining := numItems
      let b1 := { b with rdCnt := b.rdCnt + itemsRemaining }
      (numItems, some b1, removeMultipleLoop b1 itemsRemaining [])
  | _, _ => (0, buff, [])

/-- One call of the idealised variant. -/
def step (b : circularBuffer_t) : Op → circularBuffer_t × Obs
  | .addItem item =>
    let r := Ideal.circularBufferAddItem (some b) item
    (r.2.getD b, ⟨.bool r.1, []⟩)
  | .addMultiple item n =>
    let r := Ideal.circularBufferAddMultiple (some b) item n
    (r.2.getD b, ⟨.count r.1, []⟩)
  | .removeItem data =>
    let r := Ideal.circularBufferRemoveItem (some b) data
    (r.2.1.getD b, ⟨.bool r.1, r.2.2⟩)
  | .removeMultiple data n =>
    let r := Ideal.circularBufferRemoveMultiple (some b) data n
    (r.2.1.getD b, ⟨.count r.1, r.2.2⟩)
  | .full => (b, ⟨.bool (Ideal.circularBufferFull b), []⟩)
  | .empty => (b, ⟨.bool (Ideal.circularBufferEmpty b), []⟩)

/-- A call sequence of the idealised variant. -/
def run (b : circularBuffer_t) : List Op → circularBuffer_t × List Obs
  | [] => (b, [])
  | op :: ops =>
    let r := Ideal.step b op
    let rest := Ideal.run r.1 ops
    (rest.1, r.2 :: rest.2)

end Ideal

/-! ## Invariants used by the proofs -/

/-- Occupancy as the code computes it: `buff->wrCnt - buff->rdCnt` on
`unsigned int`. -/
def occupancy (b : circularBuffer_t) : Nat := usub b.wrCnt b.rdCnt

/-- The struct on which a remove call runs its rollover check, that is after
`rdCnt` has been advanced by the number of records taken; `none` for a call
that returns before the check, and for the other calls. -/
def beforeRollover (b : circularBuffer_t) : Op → Option circularBuffer_t
  | .removeItem (some _) =>
    if b.wrCnt ≤ b.rdCnt then none else some { b with rdCnt := uadd b.rdCnt 1 }
  | .removeMultiple (some _) numItems =>
    if numItems = 0 then none
    else
      let numItems :=
        if usub b.wrCnt b.rdCnt < numItems then usub b.wrCnt b.rdCnt else numItems
      some { b with rdCnt := uadd b.rdCnt numItems }
  | _ => none

/-- Counter invariant of a buffer in use: `rdCnt` is a slot index, the fields
are `unsigned int` values and the occupancy `wrCnt - rdCnt` (unsigned) is at
most the capacity. -/
def Inv (b : circularBuffer_t) : Prop :=
  b.rdCnt < b.numItems ∧ b.numItems < 4294967296 ∧ b.wrCnt < 4294967296 ∧
    usub b.wrCnt b.rdCnt ≤ b.numItems

/-- The buffer `b` holds the records `q`, oldest first: `q` has
`wrCnt - rdCnt` entries and entry `i` is what the slot of logical position
`rdCnt + i` contains. For the item sizes 1, 2, 4 and 8 and `2 * numItems`
within the counter range. -/
def Rep (b : circularBuffer_t) (q : List (List Nat)) : Prop :=
  Inv b ∧ 2 * b.numItems ≤ 4294967296 ∧
    (b.itemSize = 1 ∨ b.itemSize = 2 ∨ b.itemSize = 4 ∨ b.itemSize = 8) ∧
    q.length = b.wrCnt - b.rdCnt ∧
    ∀ i, i < q.length →
      q[i]? = some (loadBytes b.data (b.itemSize * ((b.rdCnt + i) % b.numItems)) b.itemSize)

/-- Simulation between the code (`b`) and the idealised variant (`i`): same
sizes and storage, and the idealised counters are the code's counters plus a
common multiple of the capacity. -/
def Sim (b i : circularBuffer_t) : Prop :=
  Inv b ∧ 2 * b.numItems ≤ 4294967296 ∧ i.itemSize = b.itemSize ∧
    i.numItems = b.numItems ∧ i.data = b.data ∧
    ∃ k, i.rdCnt = b.rdCnt + k * b.numItems ∧ i.wrCnt = b.wrCnt + k * b.numItems

/-! ## Concrete buffers and records used by the worked examples -/

/-- Storage whose every byte is `0xEE`. -/
def staleMem : Mem := fun _ => 238

/-- An arbitrary struct before initialisation. -/
def rawBuffer : circularBuffer_t :=
  { itemSize := 0, numItems := 0, rdCnt := 7, wrCnt := 3, data := fun _ => 0 }

/-- Memory holding the given bytes from offset 0 on (zero beyond them). -/
def bytesMem (bs : List Nat) : Mem := fun i => bs.getD i 0

/-! ## Unsigned arithmetic -/

theorem uadd_lt (a b : Nat) : uadd a b < 4294967296 := by
  simp only [uadd]; omega

theorem usub_lt (a b : Nat) : usub a b < 4294967296 := by
  simp only [usub]; omega

theorem uadd_of_lt (a b : Nat) (h : a + b < 4294967296) : uadd a b = a + b := by
  simp only [uadd]; omega

theorem usub_of_le (a b : Nat) (hb : b ≤ a) (ha : a < 4294967296) : usub a b = a - b := by
  simp only [usub]; omega

theorem uadd_of_ge (a b : Nat) (h : 4294967296 ≤ a + b) (h' : a + b < 8589934592) :
    uadd a b = a + b - 4294967296 := by
  simp only [uadd]; omega

theorem usub_of_lt (a b : Nat) (hab : a < b) (hb : b < 4294967296) :
    usub a b = a + 4294967296 - b := by
  simp only [usub]; omega

/-- Adding `a` records that fit raises the occupancy by `a`. -/
theorem occ_add (wr rd a C : Nat) (hC : C < 4294967296) (h : usub wr rd + a ≤ C) :
    usub (uadd wr a) rd = usub wr rd + a := by
  simp only [usub, uadd] at h ⊢; omega

/-- Taking `a` stored records lowers the occupancy by `a`. -/
theorem occ_remove (wr rd a : Nat) (h : a ≤ usub wr rd) :
    usub wr (uadd rd a) = usub wr rd - a := by
  simp only [usub, uadd] at h ⊢; omega

/-- Subtracting the capacity from both counters keeps the occupancy. -/
theorem occ_rollover (wr rd C : Nat) : usub (usub wr C) (usub rd C) = usub wr rd := by
  simp only [usub]; omega

/-- The read counter after a removal of `a ≤ C` records and the rollover
check is a slot index again. -/
theorem rd_after (rd a C : Nat) (hrd : rd < C) (ha : a ≤ C) (hC : C < 4294967296) :
    (C ≤ uadd rd a → usub (uadd rd a) C < C) ∧ (¬ C ≤ uadd rd a → uadd rd a < C) := by
  simp only [usub, uadd]; omega

/-- When twice the capacity fits the counters, the invariant makes the
unsigned difference of the counters their ordinary difference. -/
theorem usub_nat (wr rd C : Nat) (hrd : rd < C) (hwr : wr < 4294967296)
    (h4 : usub wr rd ≤ C) (h2C : 2 * C ≤ 4294967296) :
    rd ≤ wr ∧ usub wr rd = wr - rd := by
  simp only [usub] at h4 ⊢; omega

/-! ## Counters -/

theorem init_success (b0 : circularBuffer_t) (s C : Nat) (addr : Mem)
    (hs : 1 ≤ s) (hC : 1 ≤ C) :
    initCircularBuffer (some b0) s C (some addr) =
      (true, some { itemSize := s, numItems := C, rdCnt := 0, wrCnt := 0, data := addr }) := by
  have h : ¬ (s = 0 ∨ C = 0) := by omega
  simp [initCircularBuffer, h]

theorem inv_fresh (s C : Nat) (addr : Mem) (hC : 1 ≤ C) (hC32 : C < 4294967296) :
    Inv { itemSize := s, numItems := C, rdCnt := 0, wrCnt := 0, data := addr } := by
  refine ⟨?_, ?_, ?_, ?_⟩ <;> simp only [usub] <;> omega

theorem addMultipleLoop_fields (n : Nat) (b : circularBuffer_t) (it : Mem) :
    (addMultipleLoop n b it).itemSize = b.itemSize ∧
    (addMultipleLoop n b it).numItems = b.numItems ∧
    (addMultipleLoop n b it).rdCnt = b.rdCnt ∧
    (addMultipleLoop n b it).wrCnt = b.wrCnt := by
  induction n generalizing b it with
  | zero => simp [addMultipleLoop]
  | succ n ih =>
    simp only [addMultipleLoop]
    have h := ih { b with data := addSingleItemUnsafe b it } (fun i => it (b.itemSize + i))
    simpa using h

theorem step_addItem_eq (b : circularBuffer_t) (it : Mem) :
    step b (.addItem (some it)) =
      if b.numItems ≤ usub b.wrCnt b.rdCnt then (b, ⟨.bool false, []⟩)
      else ({ b with data := addSingleItemUnsafe b it, wrCnt := uadd b.wrCnt 1 },
        ⟨.bool true, []⟩) := by
  simp only [step, circularBufferAddItem]
  split <;> rfl

theorem step_addMultiple_eq (b : circularBuffer_t) (it : Mem) (n : Nat) :
    step b (.addMultiple (some it) n) =
      (addMultipleLoop (min n (usub b.numItems (usub b.wrCnt b.rdCnt)))
          { b with wrCnt := uadd b.wrCnt (min n (usub b.numItems (usub b.wrCnt b.rdCnt))) } it,
        ⟨.count (min n (usub b.numItems (usub b.wrCnt b.rdCnt))), []⟩) := by
  simp only [step, circularBufferAddMultiple]
  split
  · rw [Nat.min_eq_right (by omega)]; rfl
  · rw [Nat.min_eq_left (by omega)]; rfl

theorem step_addMultiple_fields (b : circularBuffer_t) (it : Mem) (n : Nat) :
    (step b (.addMultiple (some it) n)).1.itemSize = b.itemSize ∧
    (step b (.addMultiple (some it) n)).1.numItems = b.numItems ∧
    (step b (.addMultiple (some it) n)).1.rdCnt = b.rdCnt ∧
    (step b (.addMultiple (some it) n)).1.wrCnt =
      uadd b.wrCnt (min n (usub b.numItems (usub b.wrCnt b.rdCnt))) := by
  rw [step_addMultiple_eq]
  exact addMultipleLoop_fields _ _ _

theorem step_removeItem_eq (b : circularBuffer_t) (d : Unit) :
    step b (.removeItem (some d)) =
      if b.wrCnt ≤ b.rdCnt then (b, ⟨.bool false, []⟩)
      else (rolloverCheck { b with rdCnt := uadd b.rdCnt 1 },
        ⟨.bool true, removeSingleItemUnsafe b⟩) := by
  simp only [step, circularBufferRemoveItem]
  split <;> rfl

theorem step_removeMultiple_eq (b : circularBuffer_t) (d : Unit) (n : Nat) :
    step b (.removeMultiple (some d) n) =
      if n = 0 then (b, ⟨.count 0, []⟩)
      else (rolloverCheck { b with rdCnt := uadd b.rdCnt (min n (usub b.wrCnt b.rdCnt)) },
        ⟨.count (min n (usub b.wrCnt b.rdCnt)),
          removeMultipleLoop { b with rdCnt := uadd b.rdCnt (min n (usub b.wrCnt b.rdCnt)) }
            (min n (usub b.wrCnt b.rdCnt)) []⟩) := by
  simp only [step, circularBufferRemoveMultiple]
  split
  · rfl
  · split
    · rw [Nat.min_eq_right (by omega)]; rfl
    · rw [Nat.min_eq_left (by omega)]; rfl

/-- Storing `a` records that fit keeps the invariant and raises the occupancy
by `a`, whatever is written to the storage. -/
theorem inv_add (b : circularBuffer_t) (a : Nat) (d : Mem) (h : Inv b)
    (ha : usub b.wrCnt b.rdCnt + a ≤ b.numItems) :
    Inv { b with data := d, wrCnt := uadd b.wrCnt a } ∧
      usub (uadd b.wrCnt a) b.rdCnt = usub b.wrCnt b.rdCnt + a := by
  obtain ⟨h1, h2, h3, h4⟩ := h
  have e := occ_add b.wrCnt b.rdCnt a b.numItems h2 ha
  refine ⟨⟨h1, h2, uadd_lt _ _, ?_⟩, e⟩
  show usub (uadd b.wrCnt a) b.rdCnt ≤ b.numItems
  rw [e]; exact ha

/-- Taking `a` stored records and running the rollover check keeps the
invariant and lowers the occupancy by `a`. -/
theorem inv_remove (b : circularBuffer_t) (a : Nat) (h : Inv b)
    (ha : a ≤ usub b.wrCnt b.rdCnt) :
    Inv (rolloverCheck { b with rdCnt := uadd b.rdCnt a }) ∧
      occupancy (rolloverCheck { b with rdCnt := uadd b.rdCnt a }) = occupancy b - a ∧
      (rolloverCheck { b with rdCnt := uadd b.rdCnt a }).numItems = b.numItems ∧
      (rolloverCheck { b with rdCnt := uadd b.rdCnt a }).itemSize = b.itemSize ∧
      (rolloverCheck { b with rdCnt := uadd b.rdCnt a }).data = b.data := by
  obtain ⟨h1, h2, h3, h4⟩ := h
  have e := occ_remove b.wrCnt b.rdCnt a ha
  obtain ⟨r1, r2⟩ := rd_after b.rdCnt a b.numItems h1 (by omega) h2
  simp only [rolloverCheck, occupancy]
  split
  · rename_i hf
    refine ⟨⟨r1 hf, h2, usub_lt _ _, ?_⟩, ?_, rfl, rfl, rfl⟩
    · show usub (usub b.wrCnt b.numItems) (usub (uadd b.rdCnt a) b.numItems) ≤ b.numItems
      rw [occ_rollover, e]; omega
    · show usub (usub b.wrCnt b.numItems) (usub (uadd b.rdCnt a) b.numItems) = _
      rw [occ_rollover, e]
  · rename_i hf
    refine ⟨⟨r2 hf, h2, h3, ?_⟩, e, rfl, rfl, rfl⟩
    show usub b.wrCnt (uadd b.rdCnt a) ≤ b.numItems
    rw [e]; omega

/-- The invariant only looks at the counters. -/
theorem inv_of_fields (b b' : circularBuffer_t) (h : Inv b) (e2 : b'.numItems = b.numItems)
    (e3 : b'.rdCnt = b.rdCnt) (e4 : b'.wrCnt = b.wrCnt) : Inv b' := by
  unfold Inv at h ⊢
  rw [e2, e3, e4]; exact h

/-- Every call keeps the counter invariant and leaves `numItems` and
`itemSize` alone. -/
theorem step_inv (b : circularBuffer_t) (op : Op) (h : Inv b) :
    Inv (step b op).1 ∧ (step b op).1.numItems = b.numItems ∧
      (step b op).1.itemSize = b.itemSize := by
  have h0 := h
  obtain ⟨h1, h2, h3, h4⟩ := h0
  cases op with
  | addItem item =>
    cases item with
    | none => exact ⟨h, rfl, rfl⟩
    | some it =>
      rw [step_addItem_eq]
      split
      · exact ⟨h, rfl, rfl⟩
      · rename_i hf
        exact ⟨(inv_add b 1 _ h (by omega)).1, rfl, rfl⟩
  | addMultiple item n =>
    cases item with
    | none => exact ⟨h, rfl, rfl⟩
    | some it =>
      obtain ⟨e1, e2, e3, e4⟩ := step_addMultiple_fields b it n
      have hfree : usub b.numItems (usub b.wrCnt b.rdCnt) =
          b.numItems - usub b.wrCnt b.rdCnt := usub_of_le _ _ h4 h2
      rw [hfree] at e4
      have hi := (inv_add b (min n (b.numItems - usub b.wrCnt b.rdCnt)) b.data h
        (by omega)).1
      exact ⟨inv_of_fields _ _ hi e2 e3 e4, e2, e1⟩
  | removeItem data =>
    cases data with
    | none => exact ⟨h, rfl, rfl⟩
    | some d =>
      rw [step_removeItem_eq]
      split
      · exact ⟨h, rfl, rfl⟩
      · rename_i hf
        have hocc : usub b.wrCnt b.rdCnt = b.wrCnt - b.rdCnt :=
          usub_of_le _ _ (by omega) h3
        obtain ⟨g1, _, g3, g4, _⟩ := inv_remove b 1 h (by omega)
        exact ⟨g1, g3, g4⟩
  | removeMultiple data n =>
    cases data with
    | none => exact ⟨h, rfl, rfl⟩
    | some d =>
      rw [step_removeMultiple_eq]
      split
      · exact ⟨h, rfl, rfl⟩
      · obtain ⟨g1, _, g3, g4, _⟩ := inv_remove b (min n (usub b.wrCnt b.rdCnt)) h
          (Nat.min_le_right _ _)
        exact ⟨g1, g3, g4⟩
  | full => exact ⟨h, rfl, rfl⟩
  | empty => exact ⟨h, rfl, rfl⟩

theorem run_inv (b : circularBuffer_t) (ops : List Op) (h : Inv b) :
    Inv (run b ops).1 ∧ (run b ops).1.numItems = b.numItems ∧
      (run b ops).1.itemSize = b.itemSize := by
  induction ops generalizing b with
  | nil => exact ⟨h, rfl, rfl⟩
  | cons op ops ih =>
    obtain ⟨i1, i2, i3⟩ := step_inv b op h
    obtain ⟨j1, j2, j3⟩ := ih (step b op).1 i1
    simp only [run]
    exact ⟨j1, j2.trans i2, j3.trans i3⟩

/-- C1. Occupancy invariant: a buffer initialised with `itemSize ≥ 1` and a
capacity `C ≥ 1` whose double fits an `unsigned int` satisfies, after every
finite sequence of calls, `rdCnt ≤ wrCnt` and `wrCnt - rdCnt ≤ C`. -/
theorem occupancy_invariant (s C : Nat) (hs : 1 ≤ s) (hC : 1 ≤ C) (h2C : 2 * C < UINT_MOD)
    (b0 : circularBuffer_t) (addr : Mem) (ops : List Op) :
    ∃ b, initCircularBuffer (some b0) s C (some addr) = (true, some b) ∧
      (run b ops).1.rdCnt ≤ (run b ops).1.wrCnt ∧
      (run b ops).1.wrCnt - (run b ops).1.rdCnt ≤ C := by
  simp only [UINT_MOD] at h2C
  refine ⟨_, init_success b0 s C addr hs hC, ?_⟩
  obtain ⟨⟨h1, h2, h3, h4⟩, hn, _⟩ := run_inv _ ops (inv_fresh s C addr hC (by omega))
  simp only at hn
  generalize (run { itemSize := s, numItems := C, rdCnt := 0, wrCnt := 0, data := addr }
    ops).1 = st at h1 h2 h3 h4 hn
  simp only [usub] at h4
  omega

theorem occupancy_invariant_witness :
    1 ≤ 1 ∧ 1 ≤ 2 ∧ 2 * 2 < UINT_MOD ∧
    ∃ b, initCircularBuffer (some rawBuffer) 1 2 (some staleMem) = (true, some b) ∧
      (run b [.addMultiple (some (bytesMem [1, 2, 3])) 3, .removeItem (some ()),
        .addItem (some (bytesMem [4])), .removeMultiple (some ()) 5]).1.rdCnt ≤
      (run b [.addMultiple (some (bytesMem [1, 2, 3])) 3, .removeItem (some ()),
        .addItem (some (bytesMem [4])), .removeMultiple (some ()) 5]).1.wrCnt ∧
      (run b [.addMultiple (some (bytesMem [1, 2, 3])) 3, .removeItem (some ()),
        .addItem (some (bytesMem [4])), .removeMultiple (some ()) 5]).1.wrCnt -
      (run b [.addMultiple (some (bytesMem [1, 2, 3])) 3, .removeItem (some ()),
        .addItem (some (bytesMem [4])), .removeMultiple (some ()) 5]).1.rdCnt ≤ 2 :=
  ⟨by decide, by decide, by decide,
    occupancy_invariant 1 2 (by decide) (by decide) (by decide) rawBuffer staleMem _⟩

theorem run_append (b : circularBuffer_t) (ops1 ops2 : List Op) :
    run b (ops1 ++ ops2) =
      ((run (run b ops1).1 ops2).1, (run b ops1).2 ++ (run (run b ops1).1 ops2).2) := by
  induction ops1 generalizing b with
  | nil => rfl
  | cons op ops ih =>
    rw [List.cons_append]
    simp only [run]
    rw [ih]
    rfl

theorem step_full_eq (b : circularBuffer_t) :
    step b .full = (b, ⟨.bool (circularBufferFull b), []⟩) := rfl

theorem step_empty_eq (b : circularBuffer_t) :
    step b .empty = (b, ⟨.bool (circularBufferEmpty b), []⟩) := rfl

theorem run_adds (recs : List Mem) (b : circularBuffer_t) (hrd : b.rdCnt = 0)
    (hroom : b.wrCnt + recs.length ≤ b.numItems) (h32 : b.numItems < 4294967296) :
    (run b (recs.map fun r => Op.addItem (some r))).2.map Obs.ret =
        List.replicate recs.length (Ret.bool true) ∧
      (run b (recs.map fun r => Op.addItem (some r))).1.rdCnt = 0 ∧
      (run b (recs.map fun r => Op.addItem (some r))).1.wrCnt = b.wrCnt + recs.length ∧
      (run b (recs.map fun r => Op.addItem (some r))).1.numItems = b.numItems ∧
      (run b (recs.map fun r => Op.addItem (some r))).1.itemSize = b.itemSize := by
  induction recs generalizing b with
  | nil => simp [run, hrd]
  | cons r recs ih =>
    simp only [List.length_cons] at hroom
    have hnf : ¬ b.numItems ≤ usub b.wrCnt b.rdCnt := by
      simp only [usub, hrd]; omega
    simp only [List.map_cons, run, step_addItem_eq, hnf, if_false]
    have h := ih { b with data := addSingleItemUnsafe b r, wrCnt := uadd b.wrCnt 1 } hrd
      (by simp only [uadd]; omega) h32
    obtain ⟨h1, h2, h3, h4, h5⟩ := h
    refine ⟨?_, h2, ?_, h4, h5⟩
    · simp only [h1, List.length_cons, List.replicate_succ]
    · rw [h3]; simp only [uadd, List.length_cons]; omega

theorem boundary_tail (s C : Nat) (d : Mem) (hC : 1 ≤ C) (hC32 : C < 4294967296)
    (r1 r2 r3 : Mem) :
    (run { itemSize := s, numItems := C, rdCnt := 0, wrCnt := C, data := d }
      [.addItem (some r1), .full, .removeItem (some ()), .full, .addItem (some r2),
        .addItem (some r3)]).2.map Obs.ret =
      [.bool false, .bool true, .bool true, .bool false, .bool true, .bool false] := by
  have e0 : usub C 0 = C := by simp only [usub]; omega
  have e00 : ¬ C ≤ 0 := by omega
  have e1 : uadd 0 1 = 1 := by simp [uadd]
  by_cases h1 : C = 1
  · subst h1
    have e2 : usub 1 1 = 0 := by simp [usub]
    have e3 : usub 0 0 = 0 := by simp [usub]
    have e4 : uadd 0 1 = 1 := by simp [uadd]
    have e5 : usub 1 0 = 1 := by simp [usub]
    simp [run, step_addItem_eq, step_removeItem_eq, step_full_eq, circularBufferFull,
      rolloverCheck, e1, e2, e3, e4, e5]
  · have e2 : ¬ C ≤ 1 := by omega
    have e3 : ¬ C ≤ usub C 1 := by simp only [usub]; omega
    have e4 : C ≤ usub (uadd C 1) 1 := by simp only [usub, uadd]; omega
    simp [run, step_addItem_eq, step_removeItem_eq, step_full_eq, circularBufferFull,
      rolloverCheck, e0, e00, e1, e2, e3, e4]

theorem addMultiple_eq (b : circularBuffer_t) (it : Mem) (n : Nat) :
    circularBufferAddMultiple (some b) (some it) n =
      (min n (usub b.numItems (usub b.wrCnt b.rdCnt)),
        some (addMultipleLoop (min n (usub b.numItems (usub b.wrCnt b.rdCnt)))
          { b with wrCnt := uadd b.wrCnt (min n (usub b.numItems (usub b.wrCnt b.rdCnt))) } it)) := by
  simp only [circularBufferAddMultiple]
  split
  · rw [Nat.min_eq_right (by omega)]
  · rw [Nat.min_eq_left (by omega)]

theorem removeMultiple_eq (b : circularBuffer_t) (d : Unit) (n : Nat) :
    circularBufferRemoveMultiple (some b) (some d) n =
      if n = 0 then (0, some b, [])
      else (min n (usub b.wrCnt b.rdCnt),
        some (rolloverCheck { b with rdCnt := uadd b.rdCnt (min n (usub b.wrCnt b.rdCnt)) }),
        removeMultipleLoop { b with rdCnt := uadd b.rdCnt (min n (usub b.wrCnt b.rdCnt)) }
          (min n (usub b.wrCnt b.rdCnt)) []) := by
  simp only [circularBufferRemoveMultiple]
  split
  · rfl
  · split
    · rw [Nat.min_eq_right (by omega)]
    · rw [Nat.min_eq_left (by omega)]

/-- C3. Capacity boundary: on a freshly initialised buffer of capacity `C`, the
first `C` calls of `circularBufferAddItem` return true, the next one returns
false and `circularBufferFull` is true; one `circularBufferRemoveItem` returns
true, after which `circularBufferFull` is false, the next add returns true and
the one after it returns false. -/
theorem capacity_boundary (s C : Nat) (hs : 1 ≤ s) (hC : 1 ≤ C) (hC32 : C < UINT_MOD)
    (b0 : circularBuffer_t) (addr : Mem) (recs : List Mem) (hlen : recs.length = C)
    (r1 r2 r3 : Mem) :
    ∃ b, initCircularBuffer (some b0) s C (some addr) = (true, some b) ∧
      (run b ((recs.map fun r => Op.addItem (some r)) ++
        [.addItem (some r1), .full, .removeItem (some ()), .full, .addItem (some r2),
          .addItem (some r3)])).2.map Obs.ret =
      List.replicate C (Ret.bool true) ++
        [.bool false, .bool true, .bool true, .bool false, .bool true, .bool false] := by
  simp only [UINT_MOD] at hC32
  refine ⟨_, init_success b0 s C addr hs hC, ?_⟩
  obtain ⟨h1, h2, h3, h4, h5⟩ := run_adds recs
    { itemSize := s, numItems := C, rdCnt := 0, wrCnt := 0, data := addr } rfl
    (by simp only [hlen]; omega) hC32
  rw [run_append]
  simp only [List.map_append, h1, hlen]
  congr 1
  generalize (run { itemSize := s, numItems := C, rdCnt := 0, wrCnt := 0, data := addr }
    (recs.map fun r => Op.addItem (some r))).1 = st at h2 h3 h4 h5
  obtain ⟨s', C', rd', wr', d'⟩ := st
  simp only [hlen, Nat.zero_add] at h2 h3 h4 h5
  subst h2 h3 h4 h5
  exact boundary_tail _ _ d' hC hC32 r1 r2 r3

theorem capacity_boundary_witness :
    1 ≤ 3 ∧ 1 ≤ 2 ∧ 2 < UINT_MOD ∧ [bytesMem [1, 2, 3], bytesMem [4, 5, 6]].length = 2 ∧
    ∃ b, initCircularBuffer (some rawBuffer) 3 2 (some staleMem) = (true, some b) ∧
      (run b (([bytesMem [1, 2, 3], bytesMem [4, 5, 6]].map fun r => Op.addItem (some r)) ++
        [.addItem (some staleMem), .full, .removeItem (some ()), .full,
          .addItem (some staleMem), .addItem (some staleMem)])).2.map Obs.ret =
      List.replicate 2 (Ret.bool true) ++
        [.bool false, .bool true, .bool true, .bool false, .bool true, .bool false] :=
  ⟨by decide, by decide, by decide, rfl,
    capacity_boundary 3 2 (by decide) (by decide) (by decide) rawBuffer staleMem
      [bytesMem [1, 2, 3], bytesMem [4, 5, 6]] rfl staleMem staleMem staleMem⟩

/-- C4. Bulk-add count: in every reachable state, with occupancy
`n = wrCnt - rdCnt` (`n ≤ C`), `circularBufferAddMultiple` with non-null
arguments and requested count `r` returns `min r (C - n)` and leaves the
occupancy at `n + min r (C - n)`; it returns 0 and keeps the occupancy on a
full buffer, and the buffer is full afterwards whenever `r ≥ C - n`. The
occupancy is the unsigned difference of the counters, which is their ordinary
difference when `2 * C` fits an `unsigned int`. -/
theorem bulk_add_count (s C : Nat) (hs : 1 ≤ s) (hC : 1 ≤ C) (hC32 : C < UINT_MOD)
    (b0 : circularBuffer_t) (addr : Mem) (ops : List Op) (item : Mem) (r : Nat) :
    ∃ b, initCircularBuffer (some b0) s C (some addr) = (true, some b) ∧
      ∃ st', (circularBufferAddMultiple (some (run b ops).1) (some item) r).2 = some st' ∧
        occupancy (run b ops).1 ≤ C ∧
        (circularBufferAddMultiple (some (run b ops).1) (some item) r).1 =
          min r (C - occupancy (run b ops).1) ∧
        occupancy st' = occupancy (run b ops).1 + min r (C - occupancy (run b ops).1) ∧
        (occupancy (run b ops).1 = C →
          (circularBufferAddMultiple (some (run b ops).1) (some item) r).1 = 0 ∧
            occupancy st' = occupancy (run b ops).1) ∧
        (C - occupancy (run b ops).1 ≤ r → circularBufferFull st' = true) ∧
        (2 * C < UINT_MOD →
          occupancy (run b ops).1 = (run b ops).1.wrCnt - (run b ops).1.rdCnt ∧
            occupancy st' = st'.wrCnt - st'.rdCnt) := by
  simp only [UINT_MOD] at hC32 ⊢
  refine ⟨_, init_success b0 s C addr hs hC, ?_⟩
  obtain ⟨hinv, hn, _⟩ := run_inv _ ops (inv_fresh s C addr hC hC32)
  simp only at hn
  generalize (run { itemSize := s, numItems := C, rdCnt := 0, wrCnt := 0, data := addr }
    ops).1 = st at hinv hn ⊢
  subst hn
  have hinv0 := hinv
  obtain ⟨h1, h2, h3, h4⟩ := hinv0
  have hfree : usub st.numItems (usub st.wrCnt st.rdCnt) =
      st.numItems - usub st.wrCnt st.rdCnt := usub_of_le _ _ h4 h2
  rw [addMultiple_eq, hfree]
  simp only [occupancy]
  generalize ha : min r (st.numItems - usub st.wrCnt st.rdCnt) = a
  have hab : usub st.wrCnt st.rdCnt + a ≤ st.numItems := by omega
  obtain ⟨hinv', hocc⟩ := inv_add st a st.data hinv hab
  obtain ⟨_, e2, e3, e4⟩ := addMultipleLoop_fields a { st with wrCnt := uadd st.wrCnt a } item
  simp only at e2 e3 e4
  have hnat : 2 * st.numItems < 4294967296 →
      usub st.wrCnt st.rdCnt = st.wrCnt - st.rdCnt ∧
        usub st.wrCnt st.rdCnt + a = uadd st.wrCnt a - st.rdCnt := by
    intro h
    have h' : 2 * st.numItems ≤ 4294967296 := Nat.le_of_lt h
    refine ⟨(usub_nat _ _ _ h1 h3 h4 h').2, ?_⟩
    rw [← hocc]
    exact (usub_nat _ _ _ hinv'.1 hinv'.2.2.1 hinv'.2.2.2 h').2
  refine ⟨_, rfl, ?_⟩
  simp only [circularBufferFull, e2, e3, e4, hocc]
  generalize usub st.wrCnt st.rdCnt = n at h4 ha hab hnat ⊢
  refine ⟨h4, trivial, trivial, ?_, ?_, hnat⟩
  · intro h; omega
  · intro h; rw [if_pos (by omega)]

theorem bulk_add_count_witness :
    1 ≤ 1 ∧ 1 ≤ 4 ∧ 4 < UINT_MOD ∧
    ∃ b, initCircularBuffer (some rawBuffer) 1 4 (some staleMem) = (true, some b) ∧
      ∃ st', (circularBufferAddMultiple (some (run b [.addItem (some staleMem)]).1)
          (some staleMem) 10).2 = some st' ∧
        occupancy (run b [.addItem (some staleMem)]).1 ≤ 4 ∧
        (circularBufferAddMultiple (some (run b [.addItem (some staleMem)]).1)
          (some staleMem) 10).1 = min 10 (4 - occupancy (run b [.addItem (some staleMem)]).1) ∧
        occupancy st' = occupancy (run b [.addItem (some staleMem)]).1 +
          min 10 (4 - occupancy (run b [.addItem (some staleMem)]).1) ∧
        (occupancy (run b [.addItem (some staleMem)]).1 = 4 →
          (circularBufferAddMultiple (some (run b [.addItem (some staleMem)]).1)
            (some staleMem) 10).1 = 0 ∧
            occupancy st' = occupancy (run b [.addItem (some staleMem)]).1) ∧
        (4 - occupancy (run b [.addItem (some staleMem)]).1 ≤ 10 →
          circularBufferFull st' = true) ∧
        (2 * 4 < UINT_MOD →
          occupancy (run b [.addItem (some staleMem)]).1 =
            (run b [.addItem (some staleMem)]).1.wrCnt -
              (run b [.addItem (some staleMem)]).1.rdCnt ∧
            occupancy st' = st'.wrCnt - st'.rdCnt) :=
  ⟨by decide, by decide, by decide,
    bulk_add_count 1 4 (by decide) (by decide) (by decide) rawBuffer staleMem
      [.addItem (some staleMem)] staleMem 10⟩

/-- C6. Bulk-remove count: in every reachable state, with occupancy
`n = wrCnt - rdCnt`, `circularBufferRemoveMultiple` with non-null arguments and
requested count `r` returns `min r n` and leaves the occupancy at
`n - min r n`. The occupancy is the unsigned difference of the counters, which
is their ordinary difference when `2 * C` fits an `unsigned int`. -/
theorem bulk_remove_count (s C : Nat) (hs : 1 ≤ s) (hC : 1 ≤ C) (hC32 : C < UINT_MOD)
    (b0 : circularBuffer_t) (addr : Mem) (ops : List Op) (r : Nat) :
    ∃ b, initCircularBuffer (some b0) s C (some addr) = (true, some b) ∧
      ∃ st', (circularBufferRemoveMultiple (some (run b ops).1) (some ()) r).2.1 = some st' ∧
        (circularBufferRemoveMultiple (some (run b ops).1) (some ()) r).1 =
          min r (occupancy (run b ops).1) ∧
        occupancy st' = occupancy (run b ops).1 - min r (occupancy (run b ops).1) ∧
        (2 * C < UINT_MOD →
          occupancy (run b ops).1 = (run b ops).1.wrCnt - (run b ops).1.rdCnt ∧
            occupancy st' = st'.wrCnt - st'.rdCnt) := by
  simp only [UINT_MOD] at hC32 ⊢
  refine ⟨_, init_success b0 s C addr hs hC, ?_⟩
  obtain ⟨hinv, hn, _⟩ := run_inv _ ops (inv_fresh s C addr hC hC32)
  simp only at hn
  generalize (run { itemSize := s, numItems := C, rdCnt := 0, wrCnt := 0, data := addr }
    ops).1 = st at hinv hn ⊢
  subst hn
  have hnat : ∀ b' : circularBuffer_t, Inv b' → b'.numItems = st.numItems →
      2 * st.numItems < 4294967296 → occupancy b' = b'.wrCnt - b'.rdCnt := by
    intro b' hb' hn' h
    exact (usub_nat _ _ _ hb'.1 hb'.2.2.1 hb'.2.2.2 (by rw [hn']; omega)).2
  rw [removeMultiple_eq]
  by_cases hr : r = 0
  · subst hr
    rw [if_pos rfl]
    refine ⟨st, rfl, ?_, ?_, fun h => ⟨hnat st hinv rfl h, hnat st hinv rfl h⟩⟩
    · exact (Nat.zero_min _).symm
    · rw [Nat.zero_min, Nat.sub_zero]
  · rw [if_neg hr]
    obtain ⟨g1, g2, g3, _, _⟩ := inv_remove st (min r (usub st.wrCnt st.rdCnt)) hinv
      (Nat.min_le_right _ _)
    exact ⟨_, rfl, rfl, g2, fun h => ⟨hnat st hinv rfl h, hnat _ g1 g3 h⟩⟩

theorem bulk_remove_count_witness :
    1 ≤ 1 ∧ 1 ≤ 4 ∧ 4 < UINT_MOD ∧
    ∃ b, initCircularBuffer (some rawBuffer) 1 4 (some staleMem) = (true, some b) ∧
      ∃ st', (circularBufferRemoveMultiple
          (some (run b [.addMultiple (some staleMem) 2]).1) (some ()) 5).2.1 = some st' ∧
        (circularBufferRemoveMultiple
          (some (run b [.addMultiple (some staleMem) 2]).1) (some ()) 5).1 =
          min 5 (occupancy (run b [.addMultiple (some staleMem) 2]).1) ∧
        occupancy st' = occupancy (run b [.addMultiple (some staleMem) 2]).1 -
          min 5 (occupancy (run b [.addMultiple (some staleMem) 2]).1) ∧
        (2 * 4 < UINT_MOD →
          occupancy (run b [.addMultiple (some staleMem) 2]).1 =
            (run b [.addMultiple (some staleMem) 2]).1.wrCnt -
              (run b [.addMultiple (some staleMem) 2]).1.rdCnt ∧
            occupancy st' = st'.wrCnt - st'.rdCnt) :=
  ⟨by decide, by decide, by decide,
    bulk_remove_count 1 4 (by decide) (by decide) (by decide) rawBuffer staleMem
      [.addMultiple (some staleMem) 2] 5⟩

/-! ## Rollover normalisation -/

theorem beforeRollover_step (b : circularBuffer_t) (op : Op) (m : circularBuffer_t)
    (h : beforeRollover b op = some m) : (step b op).1 = rolloverCheck m := by
  cases op with
  | removeItem data =>
    cases data with
    | none => simp [beforeRollover] at h
    | some d =>
      simp only [beforeRollover] at h
      rw [step_removeItem_eq]
      split at h
      · simp at h
      · rename_i hf
        rw [if_neg hf]
        simp only [Option.some.injEq] at h
        rw [← h]
  | removeMultiple data n =>
    cases data with
    | none => simp [beforeRollover] at h
    | some d =>
      simp only [beforeRollover] at h
      simp only [step, circularBufferRemoveMultiple]
      split at h
      · simp at h
      · rename_i hf
        rw [if_neg hf]
        simp only [Option.some.injEq] at h
        rw [← h]
        rfl
  | addItem item => simp [beforeRollover] at h
  | addMultiple item n => simp [beforeRollover] at h
  | full => simp [beforeRollover] at h
  | empty => simp [beforeRollover] at h

theorem beforeRollover_shape (b : circularBuffer_t) (op : Op) (m : circularBuffer_t)
    (hinv : Inv b) (h : beforeRollover b op = some m) :
    ∃ a, a ≤ usub b.wrCnt b.rdCnt ∧ m = { b with rdCnt := uadd b.rdCnt a } := by
  obtain ⟨h1, h2, h3, h4⟩ := hinv
  cases op with
  | removeItem data =>
    cases data with
    | none => simp [beforeRollover] at h
    | some d =>
      simp only [beforeRollover] at h
      split at h
      · simp at h
      · rename_i hf
        simp only [Option.some.injEq] at h
        refine ⟨1, ?_, h.symm⟩
        simp only [usub]
        omega
  | removeMultiple data n =>
    cases data with
    | none => simp [beforeRollover] at h
    | some d =>
      simp only [beforeRollover] at h
      split at h
      · simp at h
      · simp only [Option.some.injEq] at h
        refine ⟨_, ?_, h.symm⟩
        split <;> omega
  | addItem item => simp [beforeRollover] at h
  | addMultiple item n => simp [beforeRollover] at h
  | full => simp [beforeRollover] at h
  | empty => simp [beforeRollover] at h

theorem sub_mod_self_of_le (x C : Nat) (h : C ≤ x) : (x - C) % C = x % C := by
  have e : x = (x - C) + C := by omega
  conv_rhs => rw [e]
  exact (Nat.add_mod_right _ _).symm

theorem rolloverCheck_fire (st : circularBuffer_t) (a : Nat) (hinv : Inv st)
    (h2C : 2 * st.numItems ≤ 4294967296) (ha : a ≤ usub st.wrCnt st.rdCnt)
    (hfire : st.numItems ≤ uadd st.rdCnt a) :
    st.numItems ≤ uadd st.rdCnt a ∧ st.numItems ≤ st.wrCnt ∧
      (rolloverCheck { st with rdCnt := uadd st.rdCnt a }).rdCnt =
        uadd st.rdCnt a - st.numItems ∧
      (rolloverCheck { st with rdCnt := uadd st.rdCnt a }).wrCnt = st.wrCnt - st.numItems ∧
      (rolloverCheck { st with rdCnt := uadd st.rdCnt a }).wrCnt -
          (rolloverCheck { st with rdCnt := uadd st.rdCnt a }).rdCnt =
        st.wrCnt - uadd st.rdCnt a := by
  obtain ⟨h1, h2, h3, h4⟩ := hinv
  obtain ⟨n1, n2⟩ := usub_nat _ _ _ h1 h3 h4 h2C
  rw [n2] at ha
  have hr : uadd st.rdCnt a = st.rdCnt + a := uadd_of_lt _ _ (by omega)
  rw [hr] at hfire ⊢
  have e1 : usub (st.rdCnt + a) st.numItems = st.rdCnt + a - st.numItems :=
    usub_of_le _ _ hfire (by omega)
  have e2 : usub st.wrCnt st.numItems = st.wrCnt - st.numItems :=
    usub_of_le _ _ (by omega) h3
  simp only [rolloverCheck, hr, if_pos hfire, e1, e2]
  refine ⟨hfire, by omega, trivial, trivial, by omega⟩

/-- In natural numbers, under the invariant and with `2 * numItems` within the
counter range: a removal of `a` stored records either leaves `wrCnt` alone and
adds `a` to `rdCnt`, or (rollover) does so and takes `numItems` off both. -/
theorem rollover_nat (b : circularBuffer_t) (a : Nat) (hinv : Inv b)
    (h2C : 2 * b.numItems ≤ 4294967296) (ha : a ≤ b.wrCnt - b.rdCnt) :
    ((rolloverCheck { b with rdCnt := uadd b.rdCnt a }).rdCnt = b.rdCnt + a ∧
      (rolloverCheck { b with rdCnt := uadd b.rdCnt a }).wrCnt = b.wrCnt) ∨
    (b.numItems ≤ b.rdCnt + a ∧
      (rolloverCheck { b with rdCnt := uadd b.rdCnt a }).rdCnt + b.numItems = b.rdCnt + a ∧
      (rolloverCheck { b with rdCnt := uadd b.rdCnt a }).wrCnt + b.numItems = b.wrCnt) := by
  obtain ⟨h1, h2, h3, h4⟩ := hinv
  obtain ⟨n1, n2⟩ := usub_nat _ _ _ h1 h3 h4 h2C
  have hr : uadd b.rdCnt a = b.rdCnt + a := uadd_of_lt _ _ (by omega)
  simp only [rolloverCheck, hr]
  split
  · rename_i hf
    right
    have e1 : usub (b.rdCnt + a) b.numItems = b.rdCnt + a - b.numItems :=
      usub_of_le _ _ hf (by omega)
    have e2 : usub b.wrCnt b.numItems = b.wrCnt - b.numItems :=
      usub_of_le _ _ (by omega) h3
    simp only [e1, e2]
    omega
  · left
    exact ⟨rfl, rfl⟩

theorem add_mod_shift (x y C : Nat) (h : x + C = y) (i : Nat) :
    (x + i) % C = (y + i) % C := by
  rw [← h, Nat.add_right_comm, Nat.add_mod_right]

/-- C10 (amended). Counter bound: for a buffer initialised with a capacity
`C ≥ 1` whose double fits the counters (`2 * C ≤ 2^32`), in every reachable state
`rdCnt` and `wrCnt` are below `2 * C`, and every firing of the rollover check of
a remove call subtracts `C` from both counters without underflow, leaving
`wrCnt - rdCnt`, `rdCnt mod C` and `wrCnt mod C` unchanged. -/
theorem counter_bound (s C : Nat) (hs : 1 ≤ s) (hC : 1 ≤ C) (h2C : 2 * C ≤ UINT_MOD)
    (b0 : circularBuffer_t) (addr : Mem) (ops : List Op) :
    ∃ b, initCircularBuffer (some b0) s C (some addr) = (true, some b) ∧
      (run b ops).1.rdCnt < 2 * C ∧ (run b ops).1.wrCnt < 2 * C ∧
      ∀ op m, beforeRollover (run b ops).1 op = some m →
        (step (run b ops).1 op).1 = rolloverCheck m ∧
        (m.numItems ≤ m.rdCnt →
          C ≤ m.rdCnt ∧ C ≤ m.wrCnt ∧
          (rolloverCheck m).rdCnt = m.rdCnt - C ∧
          (rolloverCheck m).wrCnt = m.wrCnt - C ∧
          (rolloverCheck m).wrCnt - (rolloverCheck m).rdCnt = m.wrCnt - m.rdCnt ∧
          (rolloverCheck m).rdCnt % C = m.rdCnt % C ∧
          (rolloverCheck m).wrCnt % C = m.wrCnt % C) := by
  simp only [UINT_MOD] at h2C
  refine ⟨_, init_success b0 s C addr hs hC, ?_⟩
  obtain ⟨hinv, hn, _⟩ := run_inv _ ops (inv_fresh s C addr hC (by omega))
  simp only at hn
  generalize (run { itemSize := s, numItems := C, rdCnt := 0, wrCnt := 0, data := addr }
    ops).1 = st at hinv hn ⊢
  subst hn
  have hinv' := hinv
  obtain ⟨h1, h2, h3, h4⟩ := hinv'
  simp only [usub] at h4
  refine ⟨by omega, by omega, ?_⟩
  intro op m hm
  refine ⟨beforeRollover_step st op m hm, ?_⟩
  obtain ⟨a, ha, rfl⟩ := beforeRollover_shape st op m hinv hm
  intro hfire
  obtain ⟨f1, f2, f3, f4, f5⟩ := rolloverCheck_fire st a hinv h2C ha hfire
  refine ⟨f1, f2, f3, f4, f5, ?_, ?_⟩
  · rw [f3]; exact sub_mod_self_of_le _ _ f1
  · rw [f4]; exact sub_mod_self_of_le _ _ f2

theorem counter_bound_witness :
    1 ≤ 1 ∧ 1 ≤ 2 ∧ 2 * 2 ≤ UINT_MOD ∧
    ∃ b, initCircularBuffer (some rawBuffer) 1 2 (some staleMem) = (true, some b) ∧
      (run b [.addMultiple (some staleMem) 2]).1.rdCnt < 2 * 2 ∧
      (run b [.addMultiple (some staleMem) 2]).1.wrCnt < 2 * 2 ∧
      ∀ op m, beforeRollover (run b [.addMultiple (some staleMem) 2]).1 op = some m →
        (step (run b [.addMultiple (some staleMem) 2]).1 op).1 = rolloverCheck m ∧
        (m.numItems ≤ m.rdCnt →
          2 ≤ m.rdCnt ∧ 2 ≤ m.wrCnt ∧
          (rolloverCheck m).rdCnt = m.rdCnt - 2 ∧
          (rolloverCheck m).wrCnt = m.wrCnt - 2 ∧
          (rolloverCheck m).wrCnt - (rolloverCheck m).rdCnt = m.wrCnt - m.rdCnt ∧
          (rolloverCheck m).rdCnt % 2 = m.rdCnt % 2 ∧
          (rolloverCheck m).wrCnt % 2 = m.wrCnt % 2) :=
  ⟨by decide, by decide, by decide,
    counter_bound 1 2 (by decide) (by decide) (by decide) rawBuffer staleMem
      [.addMultiple (some staleMem) 2]⟩

theorem step_removeMultiple_fields (b : circularBuffer_t) (d : Unit) (n : Nat) (hn : n ≠ 0) :
    (step b (.removeMultiple (some d) n)).1.numItems = b.numItems ∧
    (step b (.removeMultiple (some d) n)).1.rdCnt =
      (if b.numItems ≤ uadd b.rdCnt (min n (usub b.wrCnt b.rdCnt))
        then usub (uadd b.rdCnt (min n (usub b.wrCnt b.rdCnt))) b.numItems
        else uadd b.rdCnt (min n (usub b.wrCnt b.rdCnt))) ∧
    (step b (.removeMultiple (some d) n)).1.wrCnt =
      (if b.numItems ≤ uadd b.rdCnt (min n (usub b.wrCnt b.rdCnt))
        then usub b.wrCnt b.numItems else b.wrCnt) := by
  rw [step_removeMultiple_eq, if_neg hn]
  simp only [rolloverCheck]
  split <;> exact ⟨rfl, rfl, rfl⟩

/-- With a capacity above `2^31`, filling the buffer, taking all records but
one and filling it again wraps `wrCnt`; the rollover check of the next
`circularBufferRemoveMultiple` of one record then fires with `wrCnt < C`. -/
theorem rollover_underflow (b : circularBuffer_t) (it1 it3 : Mem) (C n2 : Nat)
    (hC : 2147483648 < C) (hC32 : C < 4294967296) (hn : b.numItems = C)
    (hr : b.rdCnt = 0) (hw : b.wrCnt = 0) (hn2 : n2 + 1 = C) :
    ∃ m, beforeRollover (run b [.addMultiple (some it1) C, .removeMultiple (some ()) n2,
        .addMultiple (some it3) C]).1 (.removeMultiple (some ()) 1) = some m ∧
      m.numItems ≤ m.rdCnt ∧ m.wrCnt < C ∧ (rolloverCheck m).wrCnt % C ≠ m.wrCnt % C := by
  have hbr : ∀ st : circularBuffer_t, beforeRollover st (.removeMultiple (some ()) 1) =
      some ⟨st.itemSize, st.numItems,
        uadd st.rdCnt (if usub st.wrCnt st.rdCnt < 1 then usub st.wrCnt st.rdCnt else 1),
        st.wrCnt, st.data⟩ :=
    fun st => by simp [beforeRollover]
  refine ⟨_, hbr _, ?_⟩
  simp only [run]
  -- fill
  obtain ⟨_, a2, a3, a4⟩ := step_addMultiple_fields b it1 C
  generalize (step b (.addMultiple (some it1) C)).1 = st1 at a2 a3 a4 ⊢
  rw [hn, hr, hw, usub_of_le 0 0 (Nat.le_refl 0) (by omega),
    usub_of_le C 0 (Nat.zero_le C) hC32, Nat.sub_zero, Nat.min_self,
    uadd_of_lt 0 C (by omega), Nat.zero_add] at a4
  rw [hn] at a2
  rw [hr] at a3
  clear hn hr hw
  -- take all but one
  obtain ⟨b2, b3, b4⟩ := step_removeMultiple_fields st1 () n2 (by omega)
  generalize (step st1 (.removeMultiple (some ()) n2)).1 = st2 at b2 b3 b4 ⊢
  rw [a2, a3, a4, usub_of_le C 0 (Nat.zero_le C) hC32, Nat.sub_zero,
    Nat.min_eq_left (by omega), uadd_of_lt 0 n2 (by omega), Nat.zero_add,
    if_neg (by omega)] at b3 b4
  rw [a2] at b2
  clear a2 a3 a4
  -- fill again
  obtain ⟨_, c2, c3, c4⟩ := step_addMultiple_fields st2 it3 C
  generalize (step st2 (.addMultiple (some it3) C)).1 = st3 at c2 c3 c4 ⊢
  have f1 : usub C n2 = 1 := by rw [usub_of_le C n2 (by omega) hC32]; omega
  have f2 : usub C 1 = n2 := by rw [usub_of_le C 1 (by omega) hC32]; omega
  rw [b2, b3, b4, f1, f2, Nat.min_eq_right (by omega),
    uadd_of_ge C n2 (by omega) (by omega)] at c4
  rw [b2] at c2
  rw [b3] at c3
  clear b2 b3 b4 f1 f2
  -- the next removal of one record
  have g1 : usub st3.wrCnt st3.rdCnt = C := by
    rw [c3, c4, usub_of_lt _ _ (by omega) (by omega)]; omega
  have g2 : uadd st3.rdCnt 1 = C := by
    rw [c3, uadd_of_lt _ _ (by omega)]; omega
  have g3 : usub st3.wrCnt C = n2 := by
    rw [c4, usub_of_lt _ _ (by omega) hC32]; omega
  simp only [rolloverCheck, g1, if_neg (show ¬ C < 1 by omega), g2, c2, Nat.le_refl,
    if_true, g3]
  refine ⟨trivial, by omega, ?_⟩
  rw [Nat.mod_eq_of_lt (by omega), c4, Nat.mod_eq_of_lt (by omega)]
  omega

/-- C10 as stated fails for a capacity whose double exceeds the counter range:
with `C = 2^32 - 1`, after filling the buffer, taking all records but one and
filling it again, `wrCnt` has wrapped to `2^32 - 3`; the next
`circularBufferRemoveMultiple` of one record fires the rollover check with
`wrCnt < C`, the subtraction underflows and `wrCnt mod C` changes. -/
theorem counter_bound_fails_beyond_range :
    ∃ b, initCircularBuffer (some rawBuffer) 1 4294967295 (some staleMem) = (true, some b) ∧
      ∃ m, beforeRollover (run b [.addMultiple (some staleMem) 4294967295,
          .removeMultiple (some ()) 4294967294,
          .addMultiple (some staleMem) 4294967295]).1 (.removeMultiple (some ()) 1) = some m ∧
        m.numItems ≤ m.rdCnt ∧ m.wrCnt < 4294967295 ∧
        (rolloverCheck m).wrCnt % 4294967295 ≠ m.wrCnt % 4294967295 :=
  ⟨_, init_success rawBuffer 1 4294967295 staleMem (by decide) (by decide),
    rollover_underflow _ staleMem staleMem 4294967295 4294967294 (by decide) (by decide)
      rfl rfl rfl (by decide)⟩

/-! ## FIFO order of single-record calls -/

theorem loadBytes_length (m : Mem) (off n : Nat) : (loadBytes m off n).length = n := by
  simp [loadBytes]

theorem loadBytes_storeBytes_same (m : Mem) (off : Nat) (bs : List Nat) :
    loadBytes (storeBytes m off bs) off bs.length = bs := by
  apply List.ext_getElem
  · simp [loadBytes]
  · intro i h1 h2
    simp only [loadBytes, List.getElem_map, List.getElem_range, storeBytes]
    rw [if_pos (by omega), Nat.add_sub_cancel_left]
    simp [List.getD, h2]

theorem loadBytes_storeBytes_other (m : Mem) (off off' n : Nat) (bs : List Nat)
    (h : off' + n ≤ off ∨ off + bs.length ≤ off') :
    loadBytes (storeBytes m off bs) off' n = loadBytes m off' n := by
  simp only [loadBytes]
  apply List.map_congr_left
  intro i hi
  have hi' := List.mem_range.mp hi
  simp only [storeBytes]
  rw [if_neg (by omega)]

theorem addSingleItemUnsafe_typed (b : circularBuffer_t) (it : Mem)
    (hs : b.itemSize = 1 ∨ b.itemSize = 2 ∨ b.itemSize = 4 ∨ b.itemSize = 8) :
    addSingleItemUnsafe b it =
      storeBytes b.data (b.itemSize * (b.wrCnt % b.numItems)) (loadBytes it 0 b.itemSize) := by
  rcases hs with h | h | h | h <;> simp [addSingleItemUnsafe, h]

theorem removeSingleItemUnsafe_typed (b : circularBuffer_t)
    (hs : b.itemSize = 1 ∨ b.itemSize = 2 ∨ b.itemSize = 4 ∨ b.itemSize = 8) :
    removeSingleItemUnsafe b =
      loadBytes b.data (b.itemSize * (b.rdCnt % b.numItems)) b.itemSize := by
  rcases hs with h | h | h | h <;> simp [removeSingleItemUnsafe, h]

theorem slot_ne (a i j C : Nat) (hij : i < j) (hC : j < C + i) :
    (a + i) % C ≠ (a + j) % C := by
  intro h
  have h1 : ((a + j) - (a + i)) % C = 0 := Nat.sub_mod_eq_zero_of_mod_eq h.symm
  have h2 : (a + j) - (a + i) = j - i := by omega
  rw [h2, Nat.mod_eq_of_lt (by omega)] at h1
  omega

theorem slot_disjoint (s x y : Nat) (hxy : x ≠ y) :
    s * x + s ≤ s * y ∨ s * y + s ≤ s * x := by
  rcases Nat.lt_or_gt_of_ne hxy with h | h
  · left
    calc s * x + s = s * (x + 1) := by ring
      _ ≤ s * y := Nat.mul_le_mul_left s h
  · right
    calc s * y + s = s * (y + 1) := by ring
      _ ≤ s * x := Nat.mul_le_mul_left s h

theorem rep_add (b : circularBuffer_t) (q : List (List Nat)) (it : Mem) (h : Rep b q)
    (hnf : ¬ b.numItems ≤ usub b.wrCnt b.rdCnt) :
    Rep { b with data := addSingleItemUnsafe b it, wrCnt := uadd b.wrCnt 1 }
      (q ++ [loadBytes it 0 b.itemSize]) := by
  obtain ⟨⟨h1, h2, h3, h4⟩, h2C, hs, hlen, hq⟩ := h
  simp only [usub] at h4 hnf
  have hw : uadd b.wrCnt 1 = b.wrCnt + 1 := by simp only [uadd]; omega
  refine ⟨⟨h1, h2, ?_, ?_⟩, h2C, hs, ?_, ?_⟩
  · simp only [uadd]; omega
  · simp only [uadd, usub]; omega
  · simp only [List.length_append, List.length_singleton, hw]; omega
  · intro i hi
    simp only [List.length_append, List.length_singleton] at hi
    simp only [addSingleItemUnsafe_typed b it hs]
    by_cases hlt : i < q.length
    · rw [List.getElem?_append_left hlt, hq i hlt]
      congr 1
      symm
      apply loadBytes_storeBytes_other
      rw [loadBytes_length]
      have hne : (b.rdCnt + i) % b.numItems ≠ (b.rdCnt + q.length) % b.numItems :=
        slot_ne _ _ _ _ hlt (by omega)
      have hwq : b.rdCnt + q.length = b.wrCnt := by omega
      rw [hwq] at hne
      exact slot_disjoint _ _ _ hne
    · have hi' : i = q.length := by omega
      subst hi'
      have hwq : b.rdCnt + q.length = b.wrCnt := by omega
      rw [hwq]
      rw [List.getElem?_append_right (Nat.le_refl _)]
      simp only [Nat.sub_self, List.getElem?_cons_zero]
      congr 1
      have := loadBytes_storeBytes_same b.data (b.itemSize * (b.wrCnt % b.numItems))
        (loadBytes it 0 b.itemSize)
      rw [loadBytes_length] at this
      exact this.symm

theorem rep_remove (b : circularBuffer_t) (q : List (List Nat)) (h : Rep b q)
    (hne : ¬ b.wrCnt ≤ b.rdCnt) :
    ∃ q', q = removeSingleItemUnsafe b :: q' ∧
      Rep (rolloverCheck { b with rdCnt := uadd b.rdCnt 1 }) q' := by
  obtain ⟨hinv, h2C, hs, hlen, hq⟩ := h
  have hocc : 1 ≤ usub b.wrCnt b.rdCnt := by
    rw [usub_of_le _ _ (by omega) hinv.2.2.1]; omega
  obtain ⟨g1, _, g3, g4, g5⟩ := inv_remove b 1 hinv hocc
  have hnat := rollover_nat b 1 hinv h2C (by omega)
  cases q with
  | nil => simp only [List.length_nil] at hlen; omega
  | cons x q' =>
    simp only [List.length_cons] at hlen
    have h0 := hq 0 (by simp)
    simp only [List.getElem?_cons_zero, Nat.add_zero, Option.some.injEq] at h0
    have hq' : ∀ i, i < q'.length → q'[i]? =
        some (loadBytes b.data (b.itemSize * ((b.rdCnt + 1 + i) % b.numItems))
          b.itemSize) := by
      intro i hi
      have := hq (i + 1) (by simp only [List.length_cons]; omega)
      rw [Nat.add_assoc, Nat.add_comm 1 i]
      simpa using this
    refine ⟨q', ?_, g1, ?_, ?_, ?_, ?_⟩
    · rw [removeSingleItemUnsafe_typed b hs, h0]
    · rw [g3]; exact h2C
    · rw [g4]; exact hs
    · rcases hnat with ⟨r1, r2⟩ | ⟨_, r1, r2⟩ <;> omega
    · intro i hi
      rw [hq' i hi, g3, g4, g5]
      rcases hnat with ⟨r1, _⟩ | ⟨_, r1, _⟩
      · rw [r1]
      · rw [add_mod_shift _ _ _ r1 i]

theorem fifo_trace (ops : List Op) (b : circularBuffer_t) (q : List (List Nat))
    (hrep : Rep b q) (hops : singleOnly ops = true) :
    ∃ t, q ++ addedRecords b.itemSize ops (run b ops).2 =
      removedRecords ops (run b ops).2 ++ t := by
  induction ops generalizing b q with
  | nil => exact ⟨q, by simp [run, addedRecords, removedRecords]⟩
  | cons op ops ih =>
    cases op with
    | addItem item =>
      simp only [singleOnly] at hops
      cases item with
      | none =>
        obtain ⟨t, ht⟩ := ih b q hrep hops
        refine ⟨t, ?_⟩
        simpa [run, step, circularBufferAddItem, addedRecords, removedRecords] using ht
      | some it =>
        simp only [run, step_addItem_eq]
        split
        · obtain ⟨t, ht⟩ := ih b q hrep hops
          refine ⟨t, ?_⟩
          simpa [addedRecords, removedRecords] using ht
        · rename_i hnf
          obtain ⟨t, ht⟩ := ih _ _ (rep_add b q it hrep hnf) hops
          refine ⟨t, ?_⟩
          simpa [addedRecords, removedRecords] using ht
    | removeItem data =>
      simp only [singleOnly] at hops
      cases data with
      | none =>
        obtain ⟨t, ht⟩ := ih b q hrep hops
        refine ⟨t, ?_⟩
        simpa [run, step, circularBufferRemoveItem, addedRecords, removedRecords] using ht
      | some d =>
        simp only [run, step_removeItem_eq]
        split
        · obtain ⟨t, ht⟩ := ih b q hrep hops
          refine ⟨t, ?_⟩
          simpa [addedRecords, removedRecords] using ht
        · rename_i hne
          obtain ⟨q', hq, hrep'⟩ := rep_remove b q hrep hne
          obtain ⟨t, ht⟩ := ih _ _ hrep' hops
          refine ⟨t, ?_⟩
          have hsz : (rolloverCheck { b with rdCnt := uadd b.rdCnt 1 }).itemSize = b.itemSize := by
            simp only [rolloverCheck]; split <;> rfl
          rw [hsz] at ht
          simp only [addedRecords, removedRecords, if_true, hq, List.cons_append, ht]
    | addMultiple item n => simp [singleOnly] at hops
    | removeMultiple data n => simp [singleOnly] at hops
    | full => simp [singleOnly] at hops
    | empty => simp [singleOnly] at hops

/-- C2. FIFO for single-record calls on item sizes 1, 2, 4 and 8: on a freshly
initialised buffer (capacity `C ≥ 1`, `2 * C` within the counter range) and for
every interleaving of `circularBufferAddItem` and `circularBufferRemoveItem`
calls, the bytes delivered by the `k`-th successful remove are the `itemSize`
bytes handed to the `k`-th successful add. -/
theorem fifo_single (s C : Nat) (hs : s = 1 ∨ s = 2 ∨ s = 4 ∨ s = 8) (hC : 1 ≤ C)
    (h2C : 2 * C < UINT_MOD) (b0 : circularBuffer_t) (addr : Mem) (ops : List Op)
    (hops : singleOnly ops = true) :
    ∃ b, initCircularBuffer (some b0) s C (some addr) = (true, some b) ∧
      ∀ k, k < (removedRecords ops (run b ops).2).length →
        (removedRecords ops (run b ops).2)[k]? = (addedRecords s ops (run b ops).2)[k]? := by
  simp only [UINT_MOD] at h2C
  refine ⟨_, init_success b0 s C addr (by omega) hC, ?_⟩
  have hrep : Rep { itemSize := s, numItems := C, rdCnt := 0, wrCnt := 0, data := addr } [] :=
    ⟨inv_fresh s C addr hC (by omega), by simp only; omega, hs, rfl,
      fun i hi => absurd hi (by simp)⟩
  obtain ⟨t, ht⟩ := fifo_trace ops _ [] hrep hops
  simp only [List.nil_append] at ht
  intro k hk
  rw [ht, List.getElem?_append_left hk]

theorem fifo_single_witness :
    (2 = 1 ∨ 2 = 2 ∨ 2 = 4 ∨ 2 = 8) ∧ 1 ≤ 2 ∧ 2 * 2 < UINT_MOD ∧
    singleOnly [.addItem (some (bytesMem [1, 2])), .addItem (some (bytesMem [3, 4])),
      .removeItem (some ()), .addItem (some (bytesMem [5, 6])), .removeItem (some ()),
      .removeItem (some ()), .removeItem (some ())] = true ∧
    ∃ b, initCircularBuffer (some rawBuffer) 2 2 (some staleMem) = (true, some b) ∧
      ∀ k, k < (removedRecords
          [.addItem (some (bytesMem [1, 2])), .addItem (some (bytesMem [3, 4])),
            .removeItem (some ()), .addItem (some (bytesMem [5, 6])), .removeItem (some ()),
            .removeItem (some ()), .removeItem (some ())]
          (run b [.addItem (some (bytesMem [1, 2])), .addItem (some (bytesMem [3, 4])),
            .removeItem (some ()), .addItem (some (bytesMem [5, 6])), .removeItem (some ()),
            .removeItem (some ()), .removeItem (some ())]).2).length →
        (removedRecords
          [.addItem (some (bytesMem [1, 2])), .addItem (some (bytesMem [3, 4])),
            .removeItem (some ()), .addItem (some (bytesMem [5, 6])), .removeItem (some ()),
            .removeItem (some ()), .removeItem (some ())]
          (run b [.addItem (some (bytesMem [1, 2])), .addItem (some (bytesMem [3, 4])),
            .removeItem (some ()), .addItem (some (bytesMem [5, 6])), .removeItem (some ()),
            .removeItem (some ()), .removeItem (some ())]).2)[k]? =
        (addedRecords 2
          [.addItem (some (bytesMem [1, 2])), .addItem (some (bytesMem [3, 4])),
            .removeItem (some ()), .addItem (some (bytesMem [5, 6])), .removeItem (some ()),
            .removeItem (some ()), .removeItem (some ())]
          (run b [.addItem (some (bytesMem [1, 2])), .addItem (some (bytesMem [3, 4])),
            .removeItem (some ()), .addItem (some (bytesMem [5, 6])), .removeItem (some ()),
            .removeItem (some ()), .removeItem (some ())]).2)[k]? :=
  ⟨by decide, by decide, by decide, rfl,
    fifo_single 2 2 (by decide) (by decide) (by decide) rawBuffer staleMem _ rfl⟩

/-! ## Refinement of the idealised variant -/

theorem addSingleItemUnsafe_congr (b i : circularBuffer_t) (it : Mem)
    (h1 : i.itemSize = b.itemSize) (h2 : i.numItems = b.numItems) (h3 : i.data = b.data)
    (h4 : i.wrCnt % b.numItems = b.wrCnt % b.numItems) :
    addSingleItemUnsafe i it = addSingleItemUnsafe b it := by
  simp only [addSingleItemUnsafe, h1, h2, h3, h4]

theorem removeSingleItemUnsafe_congr (b i : circularBuffer_t)
    (h1 : i.itemSize = b.itemSize) (h2 : i.numItems = b.numItems) (h3 : i.data = b.data)
    (h4 : i.rdCnt % b.numItems = b.rdCnt % b.numItems) :
    removeSingleItemUnsafe i = removeSingleItemUnsafe b := by
  simp only [removeSingleItemUnsafe, h1, h2, h3, h4]

theorem addMultipleLoop_data_congr (n : Nat) (b i : circularBuffer_t) (it : Mem)
    (h1 : i.itemSize = b.itemSize) (h2 : i.numItems = b.numItems) (h3 : i.data = b.data)
    (h4 : i.wrCnt % b.numItems = b.wrCnt % b.numItems) :
    (addMultipleLoop n i it).data = (addMultipleLoop n b it).data := by
  induction n generalizing b i it with
  | zero => simpa [addMultipleLoop] using h3
  | succ n ih =>
    simp only [addMultipleLoop]
    have hit : (fun j => it (i.itemSize + j)) = (fun j => it (b.itemSize + j)) := by
      rw [h1]
    rw [hit]
    exact ih _ _ _ h1 h2 (addSingleItemUnsafe_congr b i it h1 h2 h3 h4) h4

theorem removeMultipleLoop_congr (n : Nat) (b i : circularBuffer_t) (out : List Nat)
    (h : removeSingleItemUnsafe i = removeSingleItemUnsafe b) :
    removeMultipleLoop i n out = removeMultipleLoop b n out := by
  induction n generalizing out with
  | zero => rfl
  | succ n ih => simp only [removeMultipleLoop, h, ih]

theorem ideal_step_addItem_eq (b : circularBuffer_t) (it : Mem) :
    Ideal.step b (.addItem (some it)) =
      if b.numItems ≤ b.wrCnt - b.rdCnt then (b, ⟨.bool false, []⟩)
      else ({ b with data := addSingleItemUnsafe b it, wrCnt := b.wrCnt + 1 },
        ⟨.bool true, []⟩) := by
  simp only [Ideal.step, Ideal.circularBufferAddItem]
  split <;> rfl

theorem ideal_step_addMultiple_eq (b : circularBuffer_t) (it : Mem) (n : Nat) :
    Ideal.step b (.addMultiple (some it) n) =
      (addMultipleLoop (min n (b.numItems - (b.wrCnt - b.rdCnt)))
          { b with wrCnt := b.wrCnt + min n (b.numItems - (b.wrCnt - b.rdCnt)) } it,
        ⟨.count (min n (b.numItems - (b.wrCnt - b.rdCnt))), []⟩) := by
  simp only [Ideal.step, Ideal.circularBufferAddMultiple]
  split
  · rw [Nat.min_eq_right (by omega)]; rfl
  · rw [Nat.min_eq_left (by omega)]; rfl

theorem ideal_step_removeItem_eq (b : circularBuffer_t) (d : Unit) :
    Ideal.step b (.removeItem (some d)) =
      if b.wrCnt ≤ b.rdCnt then (b, ⟨.bool false, []⟩)
      else ({ b with rdCnt := b.rdCnt + 1 }, ⟨.bool true, removeSingleItemUnsafe b⟩) := by
  simp only [Ideal.step, Ideal.circularBufferRemoveItem]
  split <;> rfl

theorem ideal_step_removeMultiple_eq (b : circularBuffer_t) (d : Unit) (n : Nat) :
    Ideal.step b (.removeMultiple (some d) n) =
      if n = 0 then (b, ⟨.count 0, []⟩)
      else ({ b with rdCnt := b.rdCnt + min n (b.wrCnt - b.rdCnt) },
        ⟨.count (min n (b.wrCnt - b.rdCnt)),
          removeMultipleLoop { b with rdCnt := b.rdCnt + min n (b.wrCnt - b.rdCnt) }
            (min n (b.wrCnt - b.rdCnt)) []⟩) := by
  simp only [Ideal.step, Ideal.circularBufferRemoveMultiple]
  split
  · rfl
  · split
    · rw [Nat.min_eq_right (by omega)]; rfl
    · rw [Nat.min_eq_left (by omega)]; rfl

theorem sim_step (b i : circularBuffer_t) (op : Op) (h : Sim b i) :
    (Ideal.step i op).2 = (step b op).2 ∧ Sim (step b op).1 (Ideal.step i op).1 := by
  have hsame := h
  obtain ⟨hinv, h2C, e1, e2, e3, k, k1, k2⟩ := h
  have hinv0 := hinv
  obtain ⟨i1, i2, i3, i4⟩ := hinv0
  obtain ⟨n1, n2⟩ := usub_nat _ _ _ i1 i3 i4 h2C
  have hocc : i.wrCnt - i.rdCnt = usub b.wrCnt b.rdCnt := by rw [n2]; omega
  have hfree : usub b.numItems (usub b.wrCnt b.rdCnt) = b.numItems - usub b.wrCnt b.rdCnt :=
    usub_of_le _ _ i4 i2
  have hle : i.wrCnt ≤ i.rdCnt ↔ b.wrCnt ≤ b.rdCnt := by omega
  have hmr : ∀ a, (i.rdCnt + a) % b.numItems = (b.rdCnt + a) % b.numItems := by
    intro a; rw [k1, Nat.add_right_comm, Nat.add_mul_mod_self_right]
  have hmw : ∀ a, (i.wrCnt + a) % b.numItems = (b.wrCnt + a) % b.numItems := by
    intro a; rw [k2, Nat.add_right_comm, Nat.add_mul_mod_self_right]
  cases op with
  | full =>
    refine ⟨?_, hsame⟩
    simp only [Ideal.step, step, Ideal.circularBufferFull, circularBufferFull, hocc, e2]
  | empty =>
    refine ⟨?_, hsame⟩
    simp only [Ideal.step, step, Ideal.circularBufferEmpty, circularBufferEmpty, hocc]
  | addItem item =>
    cases item with
    | none => exact ⟨rfl, hsame⟩
    | some it =>
      rw [step_addItem_eq, ideal_step_addItem_eq]
      by_cases hf : b.numItems ≤ usub b.wrCnt b.rdCnt
      · rw [if_pos hf, if_pos (by rw [e2, hocc]; exact hf)]
        exact ⟨rfl, hsame⟩
      · rw [if_neg hf, if_neg (by rw [e2, hocc]; exact hf)]
        dsimp only
        have hw : uadd b.wrCnt 1 = b.wrCnt + 1 := uadd_of_lt _ _ (by omega)
        have hd : addSingleItemUnsafe i it = addSingleItemUnsafe b it :=
          addSingleItemUnsafe_congr b i it e1 e2 e3 (hmw 0)
        refine ⟨rfl, (inv_add b 1 _ hinv (by omega)).1, h2C, e1, e2, hd, k, k1, ?_⟩
        show i.wrCnt + 1 = uadd b.wrCnt 1 + k * b.numItems
        rw [hw]; omega
  | addMultiple item n =>
    cases item with
    | none => exact ⟨rfl, hsame⟩
    | some it =>
      have haeq : min n (i.numItems - (i.wrCnt - i.rdCnt)) =
          min n (usub b.numItems (usub b.wrCnt b.rdCnt)) := by rw [e2, hocc, hfree]
      rw [step_addMultiple_eq, ideal_step_addMultiple_eq, haeq]
      dsimp only
      generalize ha : min n (usub b.numItems (usub b.wrCnt b.rdCnt)) = a
      have hab : usub b.wrCnt b.rdCnt + a ≤ b.numItems := by
        rw [hfree] at ha; omega
      obtain ⟨f1, f2, f3, f4⟩ := addMultipleLoop_fields a { b with wrCnt := uadd b.wrCnt a } it
      obtain ⟨g1, g2, g3, g4⟩ := addMultipleLoop_fields a { i with wrCnt := i.wrCnt + a } it
      have hw : uadd b.wrCnt a = b.wrCnt + a := uadd_of_lt _ _ (by omega)
      have hi := (inv_add b a b.data hinv hab).1
      refine ⟨rfl, inv_of_fields _ _ hi f2 f3 f4, ?_, ?_, ?_, ?_, k, ?_, ?_⟩
      · rw [f2]; exact h2C
      · rw [g1, f1]; exact e1
      · rw [g2, f2]; exact e2
      · exact addMultipleLoop_data_congr a _ _ it e1 e2 e3 (by
          show (i.wrCnt + a) % b.numItems = uadd b.wrCnt a % b.numItems
          rw [hw]; exact hmw a)
      · rw [g3, f3, f2]; exact k1
      · rw [g4, f4, f2]
        show i.wrCnt + a = uadd b.wrCnt a + k * b.numItems
        rw [hw]; omega
  | removeItem data =>
    cases data with
    | none => exact ⟨rfl, hsame⟩
    | some d =>
      rw [step_removeItem_eq, ideal_step_removeItem_eq]
      by_cases hemp : b.wrCnt ≤ b.rdCnt
      · rw [if_pos hemp, if_pos (hle.mpr hemp)]
        exact ⟨rfl, hsame⟩
      · rw [if_neg hemp, if_neg (fun h => hemp (hle.mp h))]
        dsimp only
        have hout : removeSingleItemUnsafe i = removeSingleItemUnsafe b :=
          removeSingleItemUnsafe_congr b i e1 e2 e3 (hmr 0)
        obtain ⟨g1, _, g3, g4, g5⟩ := inv_remove b 1 hinv (by rw [n2]; omega)
        refine ⟨by rw [hout], g1, ?_, ?_, ?_, ?_, ?_⟩
        · rw [g3]; exact h2C
        · rw [g4]; exact e1
        · rw [g3]; exact e2
        · rw [g5]; exact e3
        · rw [g3]
          rcases rollover_nat b 1 hinv h2C (by omega) with ⟨r1, r2⟩ | ⟨_, r1, r2⟩
          · exact ⟨k, by show i.rdCnt + 1 = _; omega, by show i.wrCnt = _; omega⟩
          · refine ⟨k + 1, ?_, ?_⟩
            · show i.rdCnt + 1 = _
              rw [Nat.add_mul, Nat.one_mul]; omega
            · show i.wrCnt = _
              rw [Nat.add_mul, Nat.one_mul]; omega
  | removeMultiple data n =>
    cases data with
    | none => exact ⟨rfl, hsame⟩
    | some d =>
      rw [step_removeMultiple_eq, ideal_step_removeMultiple_eq]
      by_cases hn : n = 0
      · rw [if_pos hn, if_pos hn]
        exact ⟨rfl, hsame⟩
      · rw [if_neg hn, if_neg hn, hocc]
        dsimp only
        generalize ha : min n (usub b.wrCnt b.rdCnt) = a
        have hab : a ≤ usub b.wrCnt b.rdCnt := by omega
        have hr : uadd b.rdCnt a = b.rdCnt + a := uadd_of_lt _ _ (by omega)
        have hout : removeSingleItemUnsafe { i with rdCnt := i.rdCnt + a } =
            removeSingleItemUnsafe { b with rdCnt := uadd b.rdCnt a } :=
          removeSingleItemUnsafe_congr _ _ e1 e2 e3 (by
            show (i.rdCnt + a) % b.numItems = uadd b.rdCnt a % b.numItems
            rw [hr]; exact hmr a)
        obtain ⟨g1, _, g3, g4, g5⟩ := inv_remove b a hinv hab
        refine ⟨by rw [removeMultipleLoop_congr a _ _ [] hout], g1, ?_, ?_, ?_, ?_, ?_⟩
        · rw [g3]; exact h2C
        · rw [g4]; exact e1
        · rw [g3]; exact e2
        · rw [g5]; exact e3
        · rw [g3]
          rcases rollover_nat b a hinv h2C (by omega) with ⟨r1, r2⟩ | ⟨_, r1, r2⟩
          · exact ⟨k, by show i.rdCnt + a = _; omega, by show i.wrCnt = _; omega⟩
          · refine ⟨k + 1, ?_, ?_⟩
            · show i.rdCnt + a = _
              rw [Nat.add_mul, Nat.one_mul]; omega
            · show i.wrCnt = _
              rw [Nat.add_mul, Nat.one_mul]; omega

theorem sim_run (ops : List Op) (b i : circularBuffer_t) (h : Sim b i) :
    (Ideal.run i ops).2 = (run b ops).2 := by
  induction ops generalizing b i with
  | nil => rfl
  | cons op ops ih =>
    obtain ⟨h1, h2⟩ := sim_step b i op h
    simp only [run, Ideal.run, h1, ih _ _ h2]

/-- C9. Rollover transparency: on a buffer initialised with `itemSize ≥ 1` and a
capacity `C ≥ 1` with `2 * C` within the counter range, over any storage
contents, every finite sequence of add, bulk-add, remove, bulk-remove, full and
empty calls yields the same return values and the same output bytes as the
idealised variant whose counters are unbounded and never normalised. -/
theorem rollover_transparent (s C : Nat) (hs : 1 ≤ s) (hC : 1 ≤ C) (h2C : 2 * C < UINT_MOD)
    (b0 : circularBuffer_t) (addr : Mem) (ops : List Op) :
    ∃ b, initCircularBuffer (some b0) s C (some addr) = (true, some b) ∧
      (run b ops).2 = (Ideal.run b ops).2 := by
  simp only [UINT_MOD] at h2C
  refine ⟨_, init_success b0 s C addr hs hC, ?_⟩
  have hsim : Sim { itemSize := s, numItems := C, rdCnt := 0, wrCnt := 0, data := addr }
      { itemSize := s, numItems := C, rdCnt := 0, wrCnt := 0, data := addr } :=
    ⟨inv_fresh s C addr hC (by omega), by simp only; omega, rfl, rfl, rfl, 0, by simp, by simp⟩
  exact (sim_run ops _ _ hsim).symm

theorem rollover_transparent_witness :
    1 ≤ 1 ∧ 1 ≤ 2 ∧ 2 * 2 < UINT_MOD ∧
    ∃ b, initCircularBuffer (some rawBuffer) 1 2 (some staleMem) = (true, some b) ∧
      (run b [.addItem (some (bytesMem [1])), .addItem (some (bytesMem [2])), .full,
        .removeItem (some ()), .removeItem (some ()), .empty,
        .addMultiple (some (bytesMem [3, 4])) 2, .removeMultiple (some ()) 2]).2 =
      (Ideal.run b [.addItem (some (bytesMem [1])), .addItem (some (bytesMem [2])), .full,
        .removeItem (some ()), .removeItem (some ()), .empty,
        .addMultiple (some (bytesMem [3, 4])) 2, .removeMultiple (some ()) 2]).2 :=
  ⟨by decide, by decide, by decide,
    rollover_transparent 1 2 (by decide) (by decide) (by decide) rawBuffer staleMem _⟩

/-! ## Worked examples where the code departs from the record-level contract -/

/-- C5 at the spec's own example (capacity 4, item size 1, empty buffer, ten
records `10 .. 19` supplied): `circularBufferAddMultiple` returns 4 and the
buffer is full, but every copy went to the slot of `wrCnt` after the increment,
so the next two `circularBufferRemoveItem` calls deliver `13` (supplied record
3) and a stale storage byte instead of supplied records 0 and 1. -/
theorem bulk_add_contents_observed :
    ∃ b, initCircularBuffer (some rawBuffer) 1 4 (some staleMem) = (true, some b) ∧
      (run b [.addMultiple (some (bytesMem [10, 11, 12, 13, 14, 15, 16, 17, 18, 19])) 10,
        .full, .removeItem (some ()), .removeItem (some ())]).2 =
      [⟨.count 4, []⟩, ⟨.bool true, []⟩, ⟨.bool true, [13]⟩, ⟨.bool true, [238]⟩] :=
  ⟨_, rfl, by decide⟩

/-- C7 at the spec's own example (capacity 4, item size 1, records `10` and
`11` stored by two `circularBufferAddItem` calls): `circularBufferRemoveMultiple`
with count 5 returns 2, but both output slots receive the stale byte of the
slot of `rdCnt` after the increment instead of `10` and `11`. -/
theorem bulk_remove_contents_observed :
    ∃ b, initCircularBuffer (some rawBuffer) 1 4 (some staleMem) = (true, some b) ∧
      (run b [.addItem (some (bytesMem [10])), .addItem (some (bytesMem [11])),
        .removeMultiple (some ()) 5]).2 =
      [⟨.bool true, []⟩, ⟨.bool true, []⟩, ⟨.count 2, [238, 238]⟩] :=
  ⟨_, rfl, by decide⟩

/-- C8 at item size 3, capacity 1: the record `1 2 3` added to the empty buffer
comes back as `1 1 1`, because the byte loop of `addSingleItemUnsafe` never
advances its source pointer. -/
theorem odd_size_round_trip_observed :
    ∃ b, initCircularBuffer (some rawBuffer) 3 1 (some staleMem) = (true, some b) ∧
      (run b [.addItem (some (bytesMem [1, 2, 3])), .removeItem (some ())]).2 =
      [⟨.bool true, []⟩, ⟨.bool true, [1, 1, 1]⟩] :=
  ⟨_, rfl, by decide⟩

/-- C14 at capacity 4, item size 1: with the record `10` stored and unread in
slot 0, `circularBufferAddMultiple` of the three records `20 21 22` returns 3
and overwrites slot 0 (the slot of `wrCnt` after the increment) with `22`. -/
theorem unread_slot_overwritten_observed :
    ∃ b, initCircularBuffer (some rawBuffer) 1 4 (some staleMem) = (true, some b) ∧
      (run b [.addItem (some (bytesMem [10]))]).1.rdCnt = 0 ∧
      (run b [.addItem (some (bytesMem [10]))]).1.wrCnt = 1 ∧
      (run b [.addItem (some (bytesMem [10]))]).1.data 0 = 10 ∧
      (step (run b [.addItem (some (bytesMem [10]))]).1
        (.addMultiple (some (bytesMem [20, 21, 22])) 3)).2 = ⟨.count 3, []⟩ ∧
      (step (run b [.addItem (some (bytesMem [10]))]).1
        (.addMultiple (some (bytesMem [20, 21, 22])) 3)).1.data 0 = 22 :=
  ⟨_, rfl, by decide, by decide, by decide, by decide, by decide⟩

/-- C15 at item size 17, capacity 1 (a storage region of 17 bytes): adding the
record `1 .. 17` to the empty buffer stores its second 64-bit word at word
index 8, so the byte at offset 64, outside the region, changes from the stale
`238` to `9`. -/
theorem out_of_region_write_observed :
    ∃ b, initCircularBuffer (some rawBuffer) 17 1 (some staleMem) = (true, some b) ∧
      ¬ 64 < b.numItems * b.itemSize ∧ b.data 64 = 238 ∧
      (step b (.addItem (some (bytesMem
        [1, 2, 3, 4, 5, 6, 7, 8, 9, 10, 11, 12, 13, 14, 15, 16, 17])))).2 =
        ⟨.bool true, []⟩ ∧
      (step b (.addItem (some (bytesMem
        [1, 2, 3, 4, 5, 6, 7, 8, 9, 10, 11, 12, 13, 14, 15, 16, 17])))).1.data 64 = 9 :=
  ⟨_, rfl, by decide, by decide, by decide, by decide⟩

/-- C16 at capacity 4, item size 1, empty buffer: the bulk add of the records
`10 11` and the two single adds end with the same counters, but the bulk add
leaves slot 0 stale and puts `11` in slot 2, where the single adds put `10` in
slot 0 and leave slot 2 alone. -/
theorem bulk_add_differs_from_single_adds :
    ∃ b, initCircularBuffer (some rawBuffer) 1 4 (some staleMem) = (true, some b) ∧
      (run b [.addMultiple (some (bytesMem [10, 11])) 2]).2 = [⟨.count 2, []⟩] ∧
      (run b [.addItem (some (bytesMem [10])), .addItem (some (bytesMem [11]))]).2 =
        [⟨.bool true, []⟩, ⟨.bool true, []⟩] ∧
      (run b [.addMultiple (some (bytesMem [10, 11])) 2]).1.wrCnt =
        (run b [.addItem (some (bytesMem [10])), .addItem (some (bytesMem [11]))]).1.wrCnt ∧
      (run b [.addMultiple (some (bytesMem [10, 11])) 2]).1.data 0 = 238 ∧
      (run b [.addItem (some (bytesMem [10])), .addItem (some (bytesMem [11]))]).1.data 0 = 10 ∧
      (run b [.addMultiple (some (bytesMem [10, 11])) 2]).1.data 2 = 11 ∧
      (run b [.addItem (some (bytesMem [10])), .addItem (some (bytesMem [11]))]).1.data 2 =
        238 :=
  ⟨_, rfl, by decide, by decide, by decide, by decide, by decide, by decide, by decide⟩

/-! ## Initialisation, failure paths and queries -/

/-- C11. Initialisation contract: `initCircularBuffer` returns false exactly
when the buffer pointer is null, the storage pointer is null, `itemSize` is 0
or `numItems` is 0, and then leaves the struct as it was; otherwise it returns
true and the struct holds the given `itemSize`, `numItems` and storage with
`rdCnt = wrCnt = 0`, so that `circularBufferEmpty` is true and
`circularBufferFull` is false. -/
theorem init_contract (buff : Option circularBuffer_t) (s C : Nat) (addr : Option Mem) :
    ((initCircularBuffer buff s C addr).1 = false ↔
        (buff = none ∨ addr = none ∨ s = 0 ∨ C = 0)) ∧
    ((initCircularBuffer buff s C addr).1 = false →
      (initCircularBuffer buff s C addr).2 = buff) ∧
    ((initCircularBuffer buff s C addr).1 = true →
      ∃ b0 a b, buff = some b0 ∧ addr = some a ∧
        (initCircularBuffer buff s C addr).2 = some b ∧
        b.itemSize = s ∧ b.numItems = C ∧ b.data = a ∧ b.rdCnt = 0 ∧ b.wrCnt = 0 ∧
        circularBufferEmpty b = true ∧ circularBufferFull b = false) := by
  cases buff with
  | none => simp [initCircularBuffer]
  | some b0 =>
    cases addr with
    | none => simp [initCircularBuffer]
    | some a =>
      by_cases h : s = 0 ∨ C = 0
      · simp [initCircularBuffer, h]
      · have hC : ¬ C ≤ 0 := by omega
        have h' : ¬ s = 0 ∧ ¬ C = 0 := by omega
        have e0 : usub 0 0 = 0 := by simp [usub]
        simp [initCircularBuffer, h, h'.1, h'.2, circularBufferEmpty, circularBufferFull, e0]
        omega

/-- A call that stores or takes nothing leaves the struct as it is. -/
theorem struct_eta_wr (b : circularBuffer_t) (h : b.wrCnt < 4294967296) :
    ({ b with wrCnt := uadd b.wrCnt 0 } : circularBuffer_t) = b := by
  rw [uadd_of_lt _ _ (by omega), Nat.add_zero]

theorem rollover_idle (b : circularBuffer_t) (h : Inv b) :
    rolloverCheck { b with rdCnt := uadd b.rdCnt 0 } = b := by
  obtain ⟨h1, h2, _, _⟩ := h
  rw [uadd_of_lt _ _ (by omega), Nat.add_zero]
  simp only [rolloverCheck]
  rw [if_neg (by omega)]

theorem failure_frame (st : circularBuffer_t) (hinv : Inv st) (item : Option Mem)
    (data : Option Unit) (n : Nat) :
    ((circularBufferAddItem (some st) item).1 = false →
      (circularBufferAddItem (some st) item).2 = some st) ∧
    ((circularBufferAddMultiple (some st) item n).1 = 0 →
      (circularBufferAddMultiple (some st) item n).2 = some st) ∧
    ((circularBufferRemoveItem (some st) data).1 = false →
      (circularBufferRemoveItem (some st) data).2 = (some st, [])) ∧
    ((circularBufferRemoveMultiple (some st) data n).1 = 0 →
      (circularBufferRemoveMultiple (some st) data n).2 = (some st, [])) := by
  refine ⟨?_, ?_, ?_, ?_⟩
  · cases item with
    | none => intro _; rfl
    | some it =>
      simp only [circularBufferAddItem]
      split
      · intro _; rfl
      · intro h; simp at h
  · cases item with
    | none => intro _; rfl
    | some it =>
      rw [addMultiple_eq]
      intro h
      simp only at h
      rw [h]
      simp only [addMultipleLoop]
      rw [struct_eta_wr st hinv.2.2.1]
  · cases data with
    | none => intro _; rfl
    | some d =>
      simp only [circularBufferRemoveItem]
      split
      · intro _; rfl
      · intro h; simp at h
  · cases data with
    | none => intro _; rfl
    | some d =>
      rw [removeMultiple_eq]
      split
      · intro _; rfl
      · intro h
        simp only at h
        rw [h]
        simp only [removeMultipleLoop]
        rw [rollover_idle st hinv]

/-- C12. Failure atomicity: in every reachable state, a
`circularBufferAddItem` or `circularBufferRemoveItem` call that returns false
and a `circularBufferAddMultiple` or `circularBufferRemoveMultiple` call that
returns 0 (whatever the cause: full, empty, count 0, null data pointer) leaves
the whole struct, storage included, as it was, and a failing remove stores no
byte at the output location; with a null buffer pointer the calls return
false or 0 and touch nothing. -/
theorem failure_atomicity (s C : Nat) (hs : 1 ≤ s) (hC : 1 ≤ C) (hC32 : C < UINT_MOD)
    (b0 : circularBuffer_t) (addr : Mem) (ops : List Op) (item : Option Mem)
    (data : Option Unit) (n : Nat) :
    ∃ b, initCircularBuffer (some b0) s C (some addr) = (true, some b) ∧
      ((circularBufferAddItem (some (run b ops).1) item).1 = false →
        (circularBufferAddItem (some (run b ops).1) item).2 = some (run b ops).1) ∧
      ((circularBufferAddMultiple (some (run b ops).1) item n).1 = 0 →
        (circularBufferAddMultiple (some (run b ops).1) item n).2 = some (run b ops).1) ∧
      ((circularBufferRemoveItem (some (run b ops).1) data).1 = false →
        (circularBufferRemoveItem (some (run b ops).1) data).2 = (some (run b ops).1, [])) ∧
      ((circularBufferRemoveMultiple (some (run b ops).1) data n).1 = 0 →
        (circularBufferRemoveMultiple (some (run b ops).1) data n).2 =
          (some (run b ops).1, [])) ∧
      circularBufferAddItem none item = (false, none) ∧
      circularBufferAddMultiple none item n = (0, none) ∧
      circularBufferRemoveItem none data = (false, none, []) ∧
      circularBufferRemoveMultiple none data n = (0, none, []) := by
  simp only [UINT_MOD] at hC32
  refine ⟨_, init_success b0 s C addr hs hC, ?_⟩
  obtain ⟨hinv, _, _⟩ := run_inv _ ops (inv_fresh s C addr hC hC32)
  obtain ⟨f1, f2, f3, f4⟩ := failure_frame _ hinv item data n
  exact ⟨f1, f2, f3, f4, rfl, rfl, rfl, rfl⟩

theorem failure_atomicity_witness :
    1 ≤ 1 ∧ 1 ≤ 1 ∧ 1 < UINT_MOD ∧
    ∃ b, initCircularBuffer (some rawBuffer) 1 1 (some staleMem) = (true, some b) ∧
      ((circularBufferAddItem (some (run b [.addItem (some (bytesMem [7]))]).1)
          (some staleMem)).1 = false →
        (circularBufferAddItem (some (run b [.addItem (some (bytesMem [7]))]).1)
          (some staleMem)).2 = some (run b [.addItem (some (bytesMem [7]))]).1) ∧
      ((circularBufferAddMultiple (some (run b [.addItem (some (bytesMem [7]))]).1)
          (some staleMem) 3).1 = 0 →
        (circularBufferAddMultiple (some (run b [.addItem (some (bytesMem [7]))]).1)
          (some staleMem) 3).2 = some (run b [.addItem (some (bytesMem [7]))]).1) ∧
      ((circularBufferRemoveItem (some (run b [.addItem (some (bytesMem [7]))]).1)
          none).1 = false →
        (circularBufferRemoveItem (some (run b [.addItem (some (bytesMem [7]))]).1)
          none).2 = (some (run b [.addItem (some (bytesMem [7]))]).1, [])) ∧
      ((circularBufferRemoveMultiple (some (run b [.addItem (some (bytesMem [7]))]).1)
          none 3).1 = 0 →
        (circularBufferRemoveMultiple (some (run b [.addItem (some (bytesMem [7]))]).1)
          none 3).2 = (some (run b [.addItem (some (bytesMem [7]))]).1, [])) ∧
      circularBufferAddItem none (some staleMem) = (false, none) ∧
      circularBufferAddMultiple none (some staleMem) 3 = (0, none) ∧
      circularBufferRemoveItem none none = (false, none, []) ∧
      circularBufferRemoveMultiple none none 3 = (0, none, []) :=
  ⟨by decide, by decide, by decide,
    failure_atomicity 1 1 (by decide) (by decide) (by decide) rawBuffer staleMem
      [.addItem (some (bytesMem [7]))] (some staleMem) none 3⟩

/-- C13. Single-record calls agree with the queries: in every reachable state
of a buffer with `2 * C` within the counter range, `circularBufferAddItem` with
a non-null record returns true exactly when `circularBufferFull` is false, and
`circularBufferRemoveItem` with a non-null output returns true exactly when
`circularBufferEmpty` is false. -/
theorem single_ops_agree_with_queries (s C : Nat) (hs : 1 ≤ s) (hC : 1 ≤ C)
    (h2C : 2 * C < UINT_MOD) (b0 : circularBuffer_t) (addr : Mem) (ops : List Op)
    (item : Mem) :
    ∃ b, initCircularBuffer (some b0) s C (some addr) = (true, some b) ∧
      ((circularBufferAddItem (some (run b ops).1) (some item)).1 = true ↔
        circularBufferFull (run b ops).1 = false) ∧
      ((circularBufferRemoveItem (some (run b ops).1) (some ())).1 = true ↔
        circularBufferEmpty (run b ops).1 = false) := by
  simp only [UINT_MOD] at h2C
  refine ⟨_, init_success b0 s C addr hs hC, ?_⟩
  obtain ⟨⟨h1, h2, h3, h4⟩, hn, _⟩ := run_inv _ ops (inv_fresh s C addr hC (by omega))
  simp only at hn
  generalize (run { itemSize := s, numItems := C, rdCnt := 0, wrCnt := 0, data := addr }
    ops).1 = st at h1 h2 h3 h4 hn ⊢
  obtain ⟨n1, n2⟩ := usub_nat _ _ _ h1 h3 h4 (by omega)
  constructor
  · simp only [circularBufferAddItem, circularBufferFull]
    split <;> simp
  · simp only [circularBufferRemoveItem, circularBufferEmpty, n2]
    by_cases he : st.wrCnt ≤ st.rdCnt
    · have h0 : st.wrCnt - st.rdCnt = 0 := by omega
      simp [he, h0]
    · have h0 : ¬ st.wrCnt - st.rdCnt = 0 := by omega
      simp [he, h0]

theorem single_ops_agree_with_queries_witness :
    1 ≤ 1 ∧ 1 ≤ 2 ∧ 2 * 2 < UINT_MOD ∧
    ∃ b, initCircularBuffer (some rawBuffer) 1 2 (some staleMem) = (true, some b) ∧
      ((circularBufferAddItem (some (run b [.addItem (some (bytesMem [7]))]).1)
          (some staleMem)).1 = true ↔
        circularBufferFull (run b [.addItem (some (bytesMem [7]))]).1 = false) ∧
      ((circularBufferRemoveItem (some (run b [.addItem (some (bytesMem [7]))]).1)
          (some ())).1 = true ↔
        circularBufferEmpty (run b [.addItem (some (bytesMem [7]))]).1 = false) :=
  ⟨by decide, by decide, by decide,
    single_ops_agree_with_queries 1 2 (by decide) (by decide) (by decide) rawBuffer
      staleMem [.addItem (some (bytesMem [7]))] staleMem⟩

/-- C18. The read counter is always a slot index: after initialisation and
after every call `rdCnt < C`, hence `rdCnt mod C = rdCnt`, and the rollover
check of a remove that takes nothing does not fire (it leaves the struct as it
is). -/
theorem read_counter_is_slot_index (s C : Nat) (hs : 1 ≤ s) (hC : 1 ≤ C)
    (hC32 : C < UINT_MOD) (b0 : circularBuffer_t) (addr : Mem) (ops : List Op) :
    ∃ b, initCircularBuffer (some b0) s C (some addr) = (true, some b) ∧
      b.rdCnt < C ∧ (run b ops).1.rdCnt < C ∧
      (run b ops).1.rdCnt % C = (run b ops).1.rdCnt ∧
      rolloverCheck { (run b ops).1 with rdCnt := uadd (run b ops).1.rdCnt 0 } =
        (run b ops).1 := by
  simp only [UINT_MOD] at hC32
  refine ⟨_, init_success b0 s C addr hs hC, ?_⟩
  obtain ⟨hinv, hn, _⟩ := run_inv _ ops (inv_fresh s C addr hC hC32)
  simp only at hn
  have h1 := hinv.1
  rw [hn] at h1
  exact ⟨hC, h1, Nat.mod_eq_of_lt h1, rollover_idle _ hinv⟩

theorem read_counter_is_slot_index_witness :
    1 ≤ 1 ∧ 1 ≤ 2 ∧ 2 < UINT_MOD ∧
    ∃ b, initCircularBuffer (some rawBuffer) 1 2 (some staleMem) = (true, some b) ∧
      b.rdCnt < 2 ∧
      (run b [.addMultiple (some staleMem) 2, .removeMultiple (some ()) 2]).1.rdCnt < 2 ∧
      (run b [.addMultiple (some staleMem) 2, .removeMultiple (some ()) 2]).1.rdCnt % 2 =
        (run b [.addMultiple (some staleMem) 2, .removeMultiple (some ()) 2]).1.rdCnt ∧
      rolloverCheck { (run b [.addMultiple (some staleMem) 2,
            .removeMultiple (some ()) 2]).1 with
          rdCnt := uadd (run b [.addMultiple (some staleMem) 2,
            .removeMultiple (some ()) 2]).1.rdCnt 0 } =
        (run b [.addMultiple (some staleMem) 2, .removeMultiple (some ()) 2]).1 :=
  ⟨by decide, by decide, by decide,
    read_counter_is_slot_index 1 2 (by decide) (by decide) (by decide) rawBuffer staleMem
      [.addMultiple (some staleMem) 2, .removeMultiple (some ()) 2]⟩

/-- C19. Full and empty are mutually exclusive: in every reachable state
`circularBufferFull` and `circularBufferEmpty` are not both true, and
`circularBufferFull` is true exactly when the occupancy `wrCnt - rdCnt` equals
`numItems`. The occupancy is the unsigned difference of the counters, which is
their ordinary difference when `2 * C` fits an `unsigned int`. -/
theorem full_empty_exclusive (s C : Nat) (hs : 1 ≤ s) (hC : 1 ≤ C) (hC32 : C < UINT_MOD)
    (b0 : circularBuffer_t) (addr : Mem) (ops : List Op) :
    ∃ b, initCircularBuffer (some b0) s C (some addr) = (true, some b) ∧
      ¬ (circularBufferFull (run b ops).1 = true ∧ circularBufferEmpty (run b ops).1 = true) ∧
      (circularBufferFull (run b ops).1 = true ↔
        occupancy (run b ops).1 = (run b ops).1.numItems) ∧
      (2 * C < UINT_MOD →
        occupancy (run b ops).1 = (run b ops).1.wrCnt - (run b ops).1.rdCnt) := by
  simp only [UINT_MOD] at hC32 ⊢
  refine ⟨_, init_success b0 s C addr hs hC, ?_⟩
  obtain ⟨⟨h1, h2, h3, h4⟩, hn, _⟩ := run_inv _ ops (inv_fresh s C addr hC hC32)
  simp only at hn
  generalize (run { itemSize := s, numItems := C, rdCnt := 0, wrCnt := 0, data := addr }
    ops).1 = st at h1 h2 h3 h4 hn ⊢
  have hnat : 2 * C < 4294967296 → usub st.wrCnt st.rdCnt = st.wrCnt - st.rdCnt :=
    fun h => (usub_nat _ _ _ h1 h3 h4 (by omega)).2
  simp only [circularBufferFull, circularBufferEmpty, occupancy]
  generalize usub st.wrCnt st.rdCnt = n at h4 hnat ⊢
  refine ⟨?_, ?_, hnat⟩
  · by_cases hf : st.numItems ≤ n
    · have : ¬ n = 0 := by omega
      simp [this]
    · simp [hf]
  · by_cases hf : st.numItems ≤ n
    · have : n = st.numItems := by omega
      simp [hf, this]
    · have : ¬ n = st.numItems := by omega
      simp [hf, this]

theorem full_empty_exclusive_witness :
    1 ≤ 1 ∧ 1 ≤ 2 ∧ 2 < UINT_MOD ∧
    ∃ b, initCircularBuffer (some rawBuffer) 1 2 (some staleMem) = (true, some b) ∧
      ¬ (circularBufferFull (run b [.addMultiple (some staleMem) 2]).1 = true ∧
        circularBufferEmpty (run b [.addMultiple (some staleMem) 2]).1 = true) ∧
      (circularBufferFull (run b [.addMultiple (some staleMem) 2]).1 = true ↔
        occupancy (run b [.addMultiple (some staleMem) 2]).1 =
          (run b [.addMultiple (some staleMem) 2]).1.numItems) ∧
      (2 * 2 < UINT_MOD →
        occupancy (run b [.addMultiple (some staleMem) 2]).1 =
          (run b [.addMultiple (some staleMem) 2]).1.wrCnt -
            (run b [.addMultiple (some staleMem) 2]).1.rdCnt) :=
  ⟨by decide, by decide, by decide,
    full_empty_exclusive 1 2 (by decide) (by decide) (by decide) rawBuffer staleMem
      [.addMultiple (some staleMem) 2]⟩

/-! ## Which call changes which field -/

theorem rolloverCheck_frame (m : circularBuffer_t) :
    (rolloverCheck m).itemSize = m.itemSize ∧ (rolloverCheck m).numItems = m.numItems ∧
      (rolloverCheck m).data = m.data ∧
      ((rolloverCheck m).wrCnt = m.wrCnt ∨
        (m.numItems ≤ m.rdCnt ∧ (rolloverCheck m).wrCnt = usub m.wrCnt m.numItems)) := by
  simp only [rolloverCheck]
  split
  · rename_i h
    exact ⟨rfl, rfl, rfl, Or.inr ⟨h, rfl⟩⟩
  · exact ⟨rfl, rfl, rfl, Or.inl rfl⟩

theorem step_frame (b : circularBuffer_t) (op : Op) :
    (step b op).1.itemSize = b.itemSize ∧ (step b op).1.numItems = b.numItems := by
  cases op with
  | addItem item =>
    cases item with
    | none => exact ⟨rfl, rfl⟩
    | some it => rw [step_addItem_eq]; split <;> exact ⟨rfl, rfl⟩
  | addMultiple item n =>
    cases item with
    | none => exact ⟨rfl, rfl⟩
    | some it =>
      obtain ⟨e1, e2, _, _⟩ := step_addMultiple_fields b it n
      exact ⟨e1, e2⟩
  | removeItem data =>
    cases data with
    | none => exact ⟨rfl, rfl⟩
    | some d =>
      rw [step_removeItem_eq]
      split
      · exact ⟨rfl, rfl⟩
      · obtain ⟨e1, e2, _, _⟩ := rolloverCheck_frame { b with rdCnt := uadd b.rdCnt 1 }
        exact ⟨e1, e2⟩
  | removeMultiple data n =>
    cases data with
    | none => exact ⟨rfl, rfl⟩
    | some d =>
      rw [step_removeMultiple_eq]
      split
      · exact ⟨rfl, rfl⟩
      · obtain ⟨e1, e2, _, _⟩ := rolloverCheck_frame
          { b with rdCnt := uadd b.rdCnt (min n (usub b.wrCnt b.rdCnt)) }
        exact ⟨e1, e2⟩
  | full => exact ⟨rfl, rfl⟩
  | empty => exact ⟨rfl, rfl⟩

/-- A remove call that reaches its rollover check: the check sees the `wrCnt`
and `numItems` of the call's start, subtracts `numItems` from `wrCnt` when it
fires and leaves `wrCnt` alone when it does not. -/
theorem wrCnt_through_rollover (b : circularBuffer_t) (op : Op) (m : circularBuffer_t)
    (hm : beforeRollover b op = some m) :
    m.wrCnt = b.wrCnt ∧ m.numItems = b.numItems ∧
      (m.numItems ≤ m.rdCnt → (step b op).1.wrCnt = usub b.wrCnt b.numItems) ∧
      (¬ m.numItems ≤ m.rdCnt → (step b op).1.wrCnt = b.wrCnt) := by
  have hw : m.wrCnt = b.wrCnt ∧ m.numItems = b.numItems := by
    cases op with
    | removeItem data =>
      cases data with
      | none => simp [beforeRollover] at hm
      | some d =>
        simp only [beforeRollover] at hm
        split at hm
        · simp at hm
        · simp only [Option.some.injEq] at hm
          rw [← hm]; exact ⟨rfl, rfl⟩
    | removeMultiple data n =>
      cases data with
      | none => simp [beforeRollover] at hm
      | some d =>
        simp only [beforeRollover] at hm
        split at hm
        · simp at hm
        · simp only [Option.some.injEq] at hm
          rw [← hm]; exact ⟨rfl, rfl⟩
    | addItem item => simp [beforeRollover] at hm
    | addMultiple item n => simp [beforeRollover] at hm
    | full => simp [beforeRollover] at hm
    | empty => simp [beforeRollover] at hm
  rw [beforeRollover_step b op m hm]
  refine ⟨hw.1, hw.2, ?_, ?_⟩
  · intro hf
    simp only [rolloverCheck, if_pos hf]
    rw [hw.1, hw.2]
  · intro hf
    simp only [rolloverCheck, if_neg hf]
    exact hw.1

/-- A `circularBufferRemoveItem` call that returns before its rollover check
leaves `wrCnt` alone. -/
theorem removeItem_wrCnt_early (b : circularBuffer_t) (data : Option Unit)
    (h : beforeRollover b (.removeItem data) = none) :
    (step b (.removeItem data)).1.wrCnt = b.wrCnt := by
  cases data with
  | none => rfl
  | some d =>
    rw [step_removeItem_eq]
    by_cases hf : b.wrCnt ≤ b.rdCnt
    · rw [if_pos hf]
    · simp [beforeRollover, hf] at h

/-- A `circularBufferRemoveMultiple` call that returns before its rollover
check leaves `wrCnt` alone. -/
theorem removeMultiple_wrCnt_early (b : circularBuffer_t) (data : Option Unit) (n : Nat)
    (h : beforeRollover b (.removeMultiple data n) = none) :
    (step b (.removeMultiple data n)).1.wrCnt = b.wrCnt := by
  cases data with
  | none => rfl
  | some d =>
    rw [step_removeMultiple_eq]
    by_cases hn : n = 0
    · rw [if_pos hn]
    · simp [beforeRollover, hn] at h

/-- C17 (amended). Each role and the counters: for every buffer state,
`circularBufferAddItem` and `circularBufferAddMultiple` never change `rdCnt`;
`circularBufferRemoveItem` and `circularBufferRemoveMultiple` leave `wrCnt`
alone when they return before their rollover check and when the check does
not fire, and when it fires (`rdCnt ≥ numItems` after the removal) they
subtract `numItems` from `wrCnt`; no call changes `itemSize` or `numItems`.
Here `m` is the struct on which the remove call runs its rollover check. -/
theorem role_counters (b : circularBuffer_t) (item : Option Mem) (data : Option Unit)
    (n : Nat) :
    (step b (.addItem item)).1.rdCnt = b.rdCnt ∧
    (step b (.addMultiple item n)).1.rdCnt = b.rdCnt ∧
    (beforeRollover b (.removeItem data) = none →
      (step b (.removeItem data)).1.wrCnt = b.wrCnt) ∧
    (∀ m, beforeRollover b (.removeItem data) = some m →
      (step b (.removeItem data)).1 = rolloverCheck m ∧
      m.wrCnt = b.wrCnt ∧ m.numItems = b.numItems ∧
      (m.numItems ≤ m.rdCnt →
        (step b (.removeItem data)).1.wrCnt = usub b.wrCnt b.numItems) ∧
      (¬ m.numItems ≤ m.rdCnt → (step b (.removeItem data)).1.wrCnt = b.wrCnt)) ∧
    (beforeRollover b (.removeMultiple data n) = none →
      (step b (.removeMultiple data n)).1.wrCnt = b.wrCnt) ∧
    (∀ m, beforeRollover b (.removeMultiple data n) = some m →
      (step b (.removeMultiple data n)).1 = rolloverCheck m ∧
      m.wrCnt = b.wrCnt ∧ m.numItems = b.numItems ∧
      (m.numItems ≤ m.rdCnt →
        (step b (.removeMultiple data n)).1.wrCnt = usub b.wrCnt b.numItems) ∧
      (¬ m.numItems ≤ m.rdCnt → (step b (.removeMultiple data n)).1.wrCnt = b.wrCnt)) ∧
    (∀ op, (step b op).1.itemSize = b.itemSize ∧ (step b op).1.numItems = b.numItems) := by
  refine ⟨?_, ?_, removeItem_wrCnt_early b data,
    fun m hm => ⟨beforeRollover_step b _ m hm, wrCnt_through_rollover b _ m hm⟩,
    removeMultiple_wrCnt_early b data n,
    fun m hm => ⟨beforeRollover_step b _ m hm, wrCnt_through_rollover b _ m hm⟩,
    step_frame b⟩
  · cases item with
    | none => rfl
    | some it => rw [step_addItem_eq]; split <;> rfl
  · cases item with
    | none => rfl
    | some it => exact (step_addMultiple_fields b it n).2.2.1

/-- C17 as stated fails: on a buffer of capacity 1 holding one record
(`wrCnt = 1`), `circularBufferRemoveItem` returns true and its rollover check
brings `wrCnt` back to 0. -/
theorem remove_changes_write_counter :
    ∃ b, initCircularBuffer (some rawBuffer) 1 1 (some staleMem) = (true, some b) ∧
      (run b [.addItem (some (bytesMem [7]))]).1.wrCnt = 1 ∧
      (step (run b [.addItem (some (bytesMem [7]))]).1 (.removeItem (some ()))).2 =
        ⟨.bool true, [7]⟩ ∧
      (step (run b [.addItem (some (bytesMem [7]))]).1 (.removeItem (some ()))).1.wrCnt = 0 :=
  ⟨_, rfl, by decide, by decide, by decide⟩

end CircularBuffer
